import Mathlib

/-!
A shallow embedding of the power-of-two-choices endpoint pool implemented in
`linkerd/proxy/balance/src/pool/p2c.rs` (`P2cPool`).

Representation choices:
* endpoint addresses (`SocketAddr`) and target descriptors (the type
  parameter `T`) are represented by natural numbers;
* the endpoint registry (`AHashMap<SocketAddr, T>`) is an association list
  with unique keys, and the readiness cache is a pair of association lists
  (`pendingQ`, `readyQ`);
* the prometheus gauge is an `Int`, the counters are `Nat`s;
* the RNG (`SmallRng`) is a stream of raw draws: `gen_range(0..n)` reduces
  the next raw draw modulo `n`, so that every value in `[0, n)` is reachable
  and the draw is always in range;
* the endpoint factory (`N : NewService`) is an explicit function argument;
* update application additionally returns the `changed` boolean computed by
  the code and an event trace recording every factory invocation, cache
  `push` and cache `evict` (the trace is instrumentation only: it does not
  influence any state).

The `ReadyCache` operations themselves live in the external `tower` crate;
they are modelled from the spec (section 4.1), as noted on each definition.
-/

namespace P2c

instance {α β : Type} [DecidableEq α] [DecidableEq β] : DecidableEq (Except α β) :=
  fun x y =>
  match x, y with
  | Except.ok a, Except.ok b =>
    if h : a = b then Decidable.isTrue (by rw [h]) else Decidable.isFalse (by simp [h])
  | Except.error a, Except.error b =>
    if h : a = b then Decidable.isTrue (by rw [h]) else Decidable.isFalse (by simp [h])
  | Except.ok _, Except.error _ => Decidable.isFalse (by simp)
  | Except.error _, Except.ok _ => Decidable.isFalse (by simp)

/-- Outcome of one readiness probe of an endpoint service. -/
inductive Probe
  | ready
  | pend
  | fail (e : Nat)
deriving DecidableEq

/-- Modelled from the spec: an endpoint service (the pool's type parameter
`S`, produced by the endpoint factory).  The concrete service type is not
part of this repository; only its contract is used: a readiness probe (a
stream of probe outcomes, consumed one per probe; an exhausted stream keeps
reporting pending), a load metric, and a dispatch outcome (response or
endpoint error). -/
structure Svc where
  probes : List Probe
  load : Nat
  dispResult : Except Nat Nat
deriving DecidableEq

/-- Events recorded while applying an update: endpoint factory invocations
(`new_endpoint.new_service`), cache pushes and cache evictions. -/
inductive Event
  | factory (a t : Nat)
  | push (a : Nat)
  | evict (a : Nat)
deriving DecidableEq

/-- The discovery update variants (`Update<T>` from the pool interface). -/
inductive Update
  | reset (targets : List (Nat × Nat))
  | add (targets : List (Nat × Nat))
  | remove (addrs : List Nat)
  | doesNotExist
deriving DecidableEq

/-- State of a `P2cPool`: the registry `endpoints`, the two partitions of
the readiness cache, the endpoint gauge, the four update counters, the
stored selection `next_idx` and the RNG stream. -/
structure PoolState where
  endpoints : List (Nat × Nat)
  pendingQ : List (Nat × Svc)
  readyQ : List (Nat × Svc)
  gauge : Int
  cReset : Nat
  cAdd : Nat
  cRm : Nat
  cDne : Nat
  next_idx : Option Nat
  rng : List Nat
deriving DecidableEq

/-- The keys of an association list. -/
def keysL {β : Type} (m : List (Nat × β)) : List Nat := m.map Prod.fst

/-- Lookup in an association list (`HashMap::get`). -/
def lookupK {β : Type} (a : Nat) : List (Nat × β) → Option β
  | [] => none
  | (a', b) :: rest => if a' = a then some b else lookupK a rest

/-- Remove the first entry with the given key (`HashMap::remove`; on a
unique-key list this removes the key entirely). -/
def eraseK {β : Type} (a : Nat) : List (Nat × β) → List (Nat × β)
  | [] => []
  | (a', b) :: rest => if a' = a then rest else (a', b) :: eraseK a rest

/-- Insert or replace an entry (`HashMap::insert`): replaces the value in
place when the key is present, appends otherwise. -/
def insertK {β : Type} (a : Nat) (b : β) : List (Nat × β) → List (Nat × β)
  | [] => [(a, b)]
  | (a', b') :: rest => if a' = a then (a, b) :: rest else (a', b') :: insertK a b rest

/-- Modelled from the spec: `ReadyCache::push` — the new entry is enqueued
as pending, any previous entry for the address (in either partition) is
dropped. -/
def cachePush (a : Nat) (s : Svc) (st : PoolState) : PoolState :=
  { st with pendingQ := eraseK a st.pendingQ ++ [(a, s)], readyQ := eraseK a st.readyQ }

/-- Modelled from the spec: `ReadyCache::evict` — the address is removed
from both partitions. -/
def cacheEvict (a : Nat) (st : PoolState) : PoolState :=
  { st with pendingQ := eraseK a st.pendingQ, readyQ := eraseK a st.readyQ }

/-- The per-target loop of `P2cPool::reset`: `rem` is the moved-aside
registry (`remaining`), `st.endpoints` accumulates the rebuilt registry.
For each `(addr, target)`: remove `addr` from `remaining`; if the removed
descriptor equals `target` the endpoint is kept untouched, otherwise the
gauge is incremented when the address is new, the factory is invoked and the
fresh service is pushed; the pair is then inserted into the registry. -/
def resetLoop (f : Nat → Nat → Svc) :
    List (Nat × Nat) → PoolState → List (Nat × Nat) → Bool → List Event →
    PoolState × List (Nat × Nat) × Bool × List Event
  | [], st, rem, changed, evs => (st, rem, changed, evs)
  | (a, t) :: rest, st, rem, changed, evs =>
    let t0 := lookupK a rem
    let rem' := eraseK a rem
    if t0 = some t then
      resetLoop f rest { st with endpoints := insertK a t st.endpoints } rem' changed evs
    else
      let g1 := if t0 = none then st.gauge + 1 else st.gauge
      let st2 := cachePush a (f a t) { st with gauge := g1 }
      resetLoop f rest { st2 with endpoints := insertK a t st2.endpoints } rem' true
        (evs ++ [Event.factory a t, Event.push a])

/-- The drain loop shared by the tail of `P2cPool::reset` (evicting the
addresses left in `remaining`) and by `P2cPool::clear`: each address is
evicted from the cache, the gauge is decremented and `changed` is set. -/
def evictAll : List (Nat × Nat) → PoolState → Bool → List Event →
    PoolState × Bool × List Event
  | [], st, changed, evs => (st, changed, evs)
  | (a, _) :: rest, st, _, evs =>
    let st1 := cacheEvict a st
    evictAll rest { st1 with gauge := st1.gauge - 1 } true (evs ++ [Event.evict a])

/-- Source `P2cPool::reset`: rebuild the registry from the update's targets,
reusing unchanged endpoints, then evict every address left over from the
previous registry. -/
def resetFn (f : Nat → Nat → Svc) (st : PoolState) (targets : List (Nat × Nat)) :
    PoolState × Bool × List Event :=
  let r := resetLoop f targets { st with endpoints := [] } st.endpoints false []
  evictAll r.2.1 r.1 r.2.2.1 r.2.2.2

/-- Source `P2cPool::add`: for each `(addr, target)`, skip when the registry
already holds exactly this pair; otherwise update the registry (incrementing
the gauge when the address is new), invoke the factory and push. -/
def addLoop (f : Nat → Nat → Svc) :
    List (Nat × Nat) → PoolState → Bool → List Event → PoolState × Bool × List Event
  | [], st, changed, evs => (st, changed, evs)
  | (a, t) :: rest, st, changed, evs =>
    match lookupK a st.endpoints with
    | some t' =>
      if t' = t then addLoop f rest st changed evs
      else
        let st1 := { st with endpoints := insertK a t st.endpoints }
        let st2 := cachePush a (f a t) st1
        addLoop f rest st2 true (evs ++ [Event.factory a t, Event.push a])
    | none =>
      let st1 := { st with endpoints := insertK a t st.endpoints, gauge := st.gauge + 1 }
      let st2 := cachePush a (f a t) st1
      addLoop f rest st2 true (evs ++ [Event.factory a t, Event.push a])

/-- Source `P2cPool::remove`: for each address present in the registry, drop it,
evict it from the cache and decrement the gauge; unknown addresses are a
no-op. -/
def removeLoop : List Nat → PoolState → Bool → List Event → PoolState × Bool × List Event
  | [], st, changed, evs => (st, changed, evs)
  | a :: rest, st, changed, evs =>
    match lookupK a st.endpoints with
    | some _ =>
      let st1 := cacheEvict a { st with endpoints := eraseK a st.endpoints }
      removeLoop rest { st1 with gauge := st1.gauge - 1 } true (evs ++ [Event.evict a])
    | none => removeLoop rest st changed evs

/-- Source `P2cPool::clear`: evict every registered address; `changed` is true iff
the registry was non-empty. -/
def clearFn (st : PoolState) : PoolState × Bool × List Event :=
  let changed := !st.endpoints.isEmpty
  let r := evictAll st.endpoints { st with endpoints := [] } false []
  (r.1, changed, r.2.2)

/-- Source `P2cMetrics::inc`: increment exactly the counter matching the update's
variant. -/
def incCounter (st : PoolState) : Update → PoolState
  | Update.reset _ => { st with cReset := st.cReset + 1 }
  | Update.add _ => { st with cAdd := st.cAdd + 1 }
  | Update.remove _ => { st with cRm := st.cRm + 1 }
  | Update.doesNotExist => { st with cDne := st.cDne + 1 }

/-- Dispatch an update to the matching operation (the `match` inside
`P2cPool::update_pool`). -/
def applyUpdate (f : Nat → Nat → Svc) (st : PoolState) :
    Update → PoolState × Bool × List Event
  | Update.reset targets => resetFn f st targets
  | Update.add targets => addLoop f targets st false []
  | Update.remove addrs => removeLoop addrs st false []
  | Update.doesNotExist => clearFn st

/-- Source `P2cPool::update_pool`, additionally exposing the `changed` flag and the
event trace: increment the matching counter, apply the update, and clear
`next_idx` when the pool changed. -/
def updatePoolE (f : Nat → Nat → Svc) (st : PoolState) (u : Update) :
    PoolState × Bool × List Event :=
  let r := applyUpdate f (incCounter st u) u
  (if r.2.1 then { r.1 with next_idx := none } else r.1, r.2.1, r.2.2)

/-- Source `P2cPool::update_pool` (state only). -/
def updatePool (f : Nat → Nat → Svc) (st : PoolState) (u : Update) : PoolState :=
  (updatePoolE f st u).1

/-- Apply a sequence of updates in order. -/
def applyUpdates (f : Nat → Nat → Svc) : PoolState → List Update → PoolState
  | st, [] => st
  | st, u :: us => applyUpdates f (updatePool f st u) us

/-- Source `P2cPool::new`: empty registry and cache, zeroed metrics, no selection. -/
def initPool (rng : List Nat) : PoolState :=
  { endpoints := [], pendingQ := [], readyQ := [], gauge := 0,
    cReset := 0, cAdd := 0, cRm := 0, cDne := 0, next_idx := none, rng := rng }

/-- Source `Rng::gen_range(0..n)`: consume the next raw draw and reduce it modulo
`n` (an exhausted stream draws 0). -/
def genRange (rng : List Nat) (n : Nat) : Nat × List Nat :=
  match rng with
  | [] => (0, [])
  | d :: rest => (d % n, rest)

/-- Source `gen_pair`: draw `aidx` uniformly from `[0, len)` and `bidx` from
`[0, len - 1)`, shifting `bidx` up by one when `bidx ≥ aidx`. -/
def gen_pair (rng : List Nat) (len : Nat) : (Nat × Nat) × List Nat :=
  let ar := genRange rng len
  let br := genRange ar.2 (len - 1)
  let bidx := if br.1 ≥ ar.1 then br.1 + 1 else br.1
  ((ar.1, bidx), br.2)

/-- Source `P2cPool::ready_index_load`: the load of the ready entry at an index. -/
def loadAt (st : PoolState) (i : Nat) : Nat :=
  ((st.readyQ.get? i).map (fun p => p.2.load)).getD 0

/-- Source `P2cPool::p2c_ready_index`: none when no endpoint is ready, index 0 when
exactly one is, otherwise the less-loaded of two distinct random indices
(ties favour the first draw). -/
def p2cReadyIndex (st : PoolState) : Option Nat × PoolState :=
  if st.readyQ.length = 0 then (none, st)
  else if st.readyQ.length = 1 then (some 0, st)
  else
    let pr := gen_pair st.rng st.readyQ.length
    let aload := loadAt st pr.1.1
    let bload := loadAt st pr.1.2
    (some (if aload ≤ bload then pr.1.1 else pr.1.2), { st with rng := pr.2 })

/-- Result of `ReadyCache::poll_pending`: all pending endpoints became
ready, some are still pending, or an endpoint failed. -/
inductive PendRes
  | ok
  | stillPending
  | err (a e : Nat)
deriving DecidableEq

/-- Modelled from the spec: one pass of `ReadyCache::poll_pending` over the
pending list, probing each entry once in order: ready entries are collected
(second component) to be appended to the ready partition, still-pending
entries remain, and the first failing entry is dropped with its error
surfaced (entries after it are left unprobed). -/
def pollPendingList : List (Nat × Svc) →
    List (Nat × Svc) × List (Nat × Svc) × Option (Nat × Nat)
  | [] => ([], [], none)
  | (a, s) :: rest =>
    match s.probes with
    | [] =>
      let r := pollPendingList rest
      ((a, s) :: r.1, r.2.1, r.2.2)
    | Probe.ready :: ps =>
      let r := pollPendingList rest
      (r.1, (a, { s with probes := ps }) :: r.2.1, r.2.2)
    | Probe.pend :: ps =>
      let r := pollPendingList rest
      ((a, { s with probes := ps }) :: r.1, r.2.1, r.2.2)
    | Probe.fail e :: _ => (rest, [], some (a, e))

/-- Modelled from the spec: `ReadyCache::poll_pending` — probe the pending
partition, move newly ready entries to the end of the ready partition, and
report ok (pending now empty), still-pending, or the first failure. -/
def pollPending (st : PoolState) : PoolState × PendRes :=
  let r := pollPendingList st.pendingQ
  let st' := { st with pendingQ := r.1, readyQ := st.readyQ ++ r.2.1 }
  match r.2.2 with
  | some ae => (st', PendRes.err ae.1 ae.2)
  | none => (st', if r.1.isEmpty then PendRes.ok else PendRes.stillPending)

/-- Result of `ReadyCache::check_ready_index`. -/
inductive CheckRes
  | ok (b : Bool)
  | err (a e : Nat)
deriving DecidableEq

/-- Modelled from the spec: `ReadyCache::check_ready_index` — re-probe the
ready entry at index `i`: still ready gives `ok true`; pending moves the
entry back to the pending partition (the ready sequence shrinks at `i`) and
gives `ok false`; a failure removes the entry and surfaces the error.  An
out-of-range index is a panic in the code, modelled as `none`. -/
def checkReadyIndex (st : PoolState) (i : Nat) : Option (PoolState × CheckRes) :=
  match st.readyQ.get? i with
  | none => none
  | some (a, s) =>
    match s.probes with
    | [] =>
      some ({ st with
                readyQ := st.readyQ.eraseIdx i
                pendingQ := st.pendingQ ++ [(a, s)] }, CheckRes.ok false)
    | Probe.ready :: ps =>
      some ({ st with readyQ := st.readyQ.set i (a, { s with probes := ps }) },
        CheckRes.ok true)
    | Probe.pend :: ps =>
      some ({ st with
                readyQ := st.readyQ.eraseIdx i
                pendingQ := st.pendingQ ++ [(a, { s with probes := ps })] }, CheckRes.ok false)
    | Probe.fail e :: _ =>
      some ({ st with readyQ := st.readyQ.eraseIdx i }, CheckRes.err a e)

/-- The pool's unified error type: a failed readiness probe (wrapped with
the failing address, `ready_cache::error::Failed`) or a dispatch error
widened by `err_into`. -/
inductive PoolError
  | failed (a e : Nat)
  | dispatch (e : Nat)
deriving DecidableEq

/-- Outcome of `P2cPool::poll_ready`. -/
inductive PollOut
  | ok
  | pending
  | err (e : PoolError)
deriving DecidableEq

/-- The candidate step of `poll_ready`:
`self.next_idx.take().or_else(|| self.p2c_ready_index())`. -/
def takeOrP2c (st : PoolState) : Option Nat × PoolState :=
  match st.next_idx with
  | some i => (some i, { st with next_idx := none })
  | none => p2cReadyIndex st

/-- Source `P2cPool::poll_ready`, with fuel bounding the number of loop
iterations (`none` means the fuel ran out or an out-of-range index was
checked): poll pending endpoints (propagating failures), take the stored
selection or run the selector, return pending when no candidate exists, and
re-check the candidate — storing it and returning ready on success, looping
on a reversion to pending, propagating failures. -/
def pollReadyAux : Nat → PoolState → Option (PollOut × PoolState)
  | 0, _ => none
  | fuel + 1, st =>
    let pr := pollPending st
    match pr.2 with
    | PendRes.err a e => some (PollOut.err (PoolError.failed a e), pr.1)
    | _ =>
      let cand := takeOrP2c pr.1
      match cand.1 with
      | none => some (PollOut.pending, cand.2)
      | some idx =>
        match checkReadyIndex cand.2 idx with
        | none => none
        | some (st3, CheckRes.ok true) => some (PollOut.ok, { st3 with next_idx := some idx })
        | some (st3, CheckRes.ok false) => pollReadyAux fuel st3
        | some (st3, CheckRes.err a e) => some (PollOut.err (PoolError.failed a e), st3)

/-- The future returned by `P2cPool::call`: it records the address the
request was dispatched to, the request, and the outcome with the endpoint
error widened into the pool's error type. -/
structure Fut where
  addr : Nat
  req : Nat
  result : Except PoolError Nat
deriving DecidableEq

/-- Source `P2cPool::call`: take the stored selection (`expect` — a missing
selection is a contract violation, modelled as `none`), dispatch through
`call_ready_index` at that index (the entry moves back to pending), and
widen the endpoint error via `err_into`. -/
def callP (st : PoolState) (req : Nat) : Option (Fut × PoolState) :=
  match st.next_idx with
  | none => none
  | some i =>
    match st.readyQ.get? i with
    | none => none
    | some (a, s) =>
      some ({ addr := a, req := req, result := s.dispResult.mapError PoolError.dispatch },
        { st with
            next_idx := none
            readyQ := st.readyQ.eraseIdx i
            pendingQ := st.pendingQ ++ [(a, s)] })

/-- A default endpoint service used by concrete witnesses. -/
def defaultSvc : Svc := { probes := [], load := 0, dispResult := Except.ok 0 }

/-- A concrete endpoint factory used by concrete witnesses. -/
def f0 : Nat → Nat → Svc := fun _ _ => defaultSvc

/-- The addresses present in the readiness cache (pending first). -/
def cacheKeys (st : PoolState) : List Nat := keysL st.pendingQ ++ keysL st.readyQ

/-- The fields of the pool state that no membership operation touches: the
four update counters, the stored selection and the RNG. -/
def frameOf (st : PoolState) : (Nat × Nat × Nat × Nat) × Option Nat × List Nat :=
  ((st.cReset, st.cAdd, st.cRm, st.cDne), st.next_idx, st.rng)

/-- Recognizer for the `Reset` variant. -/
def isResetU : Update → Bool
  | Update.reset _ => true
  | _ => false

/-- Recognizer for the `Add` variant. -/
def isAddU : Update → Bool
  | Update.add _ => true
  | _ => false

/-- Recognizer for the `Remove` variant. -/
def isRemoveU : Update → Bool
  | Update.remove _ => true
  | _ => false

/-- Recognizer for the `DoesNotExist` variant. -/
def isDneU : Update → Bool
  | Update.doesNotExist => true
  | _ => false

/-- Well-formedness of a pool state: the registry keys are unique, the cache
holds each address at most once, and an address is registered iff it is
cached (the registry/cache coherence invariant). -/
def Coh (st : PoolState) : Prop :=
  (keysL st.endpoints).Nodup ∧ (cacheKeys st).Nodup ∧
    ∀ x, x ∈ keysL st.endpoints ↔ x ∈ cacheKeys st

/-- The gauge part of well-formedness: the registry keys are unique and the
endpoint gauge equals the number of registered addresses. -/
def GaugeInv (st : PoolState) : Prop :=
  (keysL st.endpoints).Nodup ∧ st.gauge = ((keysL st.endpoints).length : Int)

/-- A concrete two-endpoint state exercising the selector: loads 5 and 3,
raw draws `[7, 7]` so that `a = 1`, `b = 0` and the less-loaded `a` wins. -/
def stW : PoolState :=
  { initPool [7, 7] with
      readyQ := [(0, { probes := [], load := 5, dispResult := Except.ok 1 }),
                 (1, { probes := [], load := 3, dispResult := Except.ok 2 })] }

/-- Events that mutate the readiness cache (a push or an evict, as opposed
to a bare factory invocation). -/
def cacheMutEv : Event → Bool
  | Event.push _ => true
  | Event.evict _ => true
  | Event.factory _ _ => false

/-- A concrete one-endpoint state with a reserved selection, used to witness
the frame properties of no-op updates. -/
def stC : PoolState :=
  { initPool [] with
      endpoints := [(3, 4)], pendingQ := [(3, defaultSvc)], gauge := 1,
      next_idx := some 0 }

/-- A concrete state whose only (pending) endpoint fails its next probe,
used to witness error propagation out of `poll_ready`. -/
def stF : PoolState :=
  { initPool [] with
      pendingQ := [(7, { probes := [Probe.fail 3], load := 0,
                         dispResult := Except.ok 0 })] }

/-- A concrete state with one ready endpoint reserved as the selection, used
to witness dispatch routing. -/
def stC3 : PoolState :=
  { initPool [] with readyQ := [(5, defaultSvc)], next_idx := some 0 }

/-- The update trace of scenario S1 (addresses: `0` is 10.10:80, `1` is
10.11:80; targets are the numbers from the scenario). -/
def trace9 : List Update :=
  [ Update.reset [(0, 0)], Update.add [(0, 1)], Update.reset [(0, 1)],
    Update.add [(1, 1)], Update.add [(1, 1)], Update.remove [0], Update.remove [0],
    Update.reset [(0, 2), (1, 2)], Update.reset [(0, 2)], Update.reset [(0, 3)],
    Update.doesNotExist, Update.doesNotExist ]

section AssocLemmas

variable {β : Type} {m : List (Nat × β)} {a x : Nat} {b c : β}

@[simp]
theorem keysL_nil : keysL ([] : List (Nat × β)) = [] := rfl

@[simp]
theorem keysL_cons : keysL ((a, b) :: m) = a :: keysL m := rfl

@[simp]
theorem keysL_append {m' : List (Nat × β)} : keysL (m ++ m') = keysL m ++ keysL m' :=
  List.map_append _ _ _

@[simp]
theorem length_keysL : (keysL m).length = m.length := List.length_map _ _

theorem mem_keysL : x ∈ keysL m ↔ ∃ b, (x, b) ∈ m := by
  constructor
  · intro h
    rcases List.mem_map.1 h with ⟨⟨a', b'⟩, hm, he⟩
    exact ⟨b', by simpa [← he] using hm⟩
  · rintro ⟨b', hm⟩
    exact List.mem_map.2 ⟨(x, b'), hm, rfl⟩

theorem lookupK_eq_none : lookupK a m = none ↔ a ∉ keysL m := by
  induction m with
  | nil => simp [lookupK]
  | cons p rest ih =>
    obtain ⟨a', b'⟩ := p
    by_cases h : a' = a <;> simp [lookupK, h, ih, Ne.symm, eq_comm]

theorem lookupK_mem (h : lookupK a m = some b) : (a, b) ∈ m := by
  induction m with
  | nil => simp [lookupK] at h
  | cons p rest ih =>
    obtain ⟨a', b'⟩ := p
    by_cases ha : a' = a
    · subst ha
      simp [lookupK] at h
      simp [h]
    · simp [lookupK, ha] at h
      exact List.mem_cons_of_mem _ (ih h)

theorem lookupK_of_mem_nodup (hn : (keysL m).Nodup) (h : (a, b) ∈ m) :
    lookupK a m = some b := by
  induction m with
  | nil => simp at h
  | cons p rest ih =>
    obtain ⟨a', b'⟩ := p
    simp only [keysL_cons, List.nodup_cons] at hn
    rcases List.mem_cons.1 h with he | hm
    · rw [Prod.mk.injEq] at he
      obtain ⟨rfl, rfl⟩ := he
      simp [lookupK]
    · have ha : a' ≠ a := by
        rintro rfl
        exact hn.1 (mem_keysL.2 ⟨b, hm⟩)
      simp only [lookupK, if_neg ha]
      exact ih hn.2 hm

theorem lookupK_some_of_mem_keysL (h : a ∈ keysL m) : ∃ b, lookupK a m = some b := by
  cases hl : lookupK a m with
  | none => exact absurd h (lookupK_eq_none.1 hl)
  | some b' => exact ⟨b', rfl⟩

theorem eraseK_sublist : List.Sublist (eraseK a m) m := by
  induction m with
  | nil => simp [eraseK]
  | cons p rest ih =>
    obtain ⟨a', b'⟩ := p
    by_cases h : a' = a
    · simp only [eraseK, if_pos h]
      exact List.sublist_cons_of_sublist _ (List.Sublist.refl rest)
    · simp only [eraseK, if_neg h]
      exact List.Sublist.cons₂ _ ih

theorem mem_of_mem_eraseK {p : Nat × β} (h : p ∈ eraseK a m) : p ∈ m :=
  (eraseK_sublist).subset h

theorem keysL_eraseK_sublist : List.Sublist (keysL (eraseK a m)) (keysL m) :=
  List.Sublist.map _ eraseK_sublist

theorem nodup_keysL_eraseK (h : (keysL m).Nodup) : (keysL (eraseK a m)).Nodup :=
  List.Nodup.sublist keysL_eraseK_sublist h

theorem mem_eraseK_of_ne (hx : x ≠ a) : (x, c) ∈ eraseK a m ↔ (x, c) ∈ m := by
  induction m with
  | nil => simp [eraseK]
  | cons p rest ih =>
    obtain ⟨a', b'⟩ := p
    by_cases h : a' = a
    · subst h
      simp only [eraseK, if_pos rfl]
      constructor
      · exact fun hm => List.mem_cons_of_mem _ hm
      · intro hm
        rcases List.mem_cons.1 hm with he | hm2
        · rw [Prod.mk.injEq] at he
          exact absurd he.1 hx
        · exact hm2
    · simp only [eraseK, if_neg h, List.mem_cons, ih]

theorem mem_keysL_eraseK_of_ne (hx : x ≠ a) :
    x ∈ keysL (eraseK a m) ↔ x ∈ keysL m := by
  simp only [mem_keysL]
  exact exists_congr fun b' => mem_eraseK_of_ne hx

theorem not_mem_keysL_eraseK (h : (keysL m).Nodup) : a ∉ keysL (eraseK a m) := by
  induction m with
  | nil => simp [eraseK]
  | cons p rest ih =>
    obtain ⟨a', b'⟩ := p
    simp only [keysL_cons, List.nodup_cons] at h
    by_cases ha : a' = a
    · subst ha
      simp only [eraseK, if_pos rfl]
      exact h.1
    · simp only [eraseK, if_neg ha, keysL_cons, List.mem_cons]
      rintro (rfl | hm)
      · exact ha rfl
      · exact ih h.2 hm

theorem eraseK_of_not_mem (h : a ∉ keysL m) : eraseK a m = m := by
  induction m with
  | nil => rfl
  | cons p rest ih =>
    obtain ⟨a', b'⟩ := p
    simp only [keysL_cons, List.mem_cons] at h
    push_neg at h
    simp only [eraseK, if_neg (Ne.symm h.1), ih h.2]

theorem length_eraseK_of_mem (h : a ∈ keysL m) :
    (eraseK a m).length + 1 = m.length := by
  induction m with
  | nil => simp at h
  | cons p rest ih =>
    obtain ⟨a', b'⟩ := p
    simp only [keysL_cons, List.mem_cons] at h
    by_cases ha : a' = a
    · simp [eraseK, ha]
    · rcases h with he | hm
      · exact absurd he.symm ha
      · simp only [eraseK, if_neg ha, List.length_cons]
        rw [← ih hm]

theorem insertK_of_not_mem (h : a ∉ keysL m) : insertK a b m = m ++ [(a, b)] := by
  induction m with
  | nil => rfl
  | cons p rest ih =>
    obtain ⟨a', b'⟩ := p
    simp only [keysL_cons, List.mem_cons] at h
    push_neg at h
    simp only [insertK, if_neg (Ne.symm h.1), ih h.2, List.cons_append]

theorem insertK_cons_eq : insertK a b ((a, c) :: m) = (a, b) :: m := by
  simp [insertK]

theorem insertK_cons_ne {a' : Nat} (h : a' ≠ a) :
    insertK a b ((a', c) :: m) = (a', c) :: insertK a b m := by
  simp [insertK, h]

theorem mem_keysL_insertK : x ∈ keysL (insertK a b m) ↔ x = a ∨ x ∈ keysL m := by
  induction m with
  | nil => simp [insertK, keysL]
  | cons p rest ih =>
    obtain ⟨a', b'⟩ := p
    by_cases h : a' = a
    · subst h
      rw [insertK_cons_eq]
      simp only [keysL_cons, List.mem_cons]
      tauto
    · rw [insertK_cons_ne h]
      simp only [keysL_cons, List.mem_cons, ih]
      tauto

theorem nodup_keysL_insertK (h : (keysL m).Nodup) : (keysL (insertK a b m)).Nodup := by
  induction m with
  | nil => simp [insertK, keysL]
  | cons p rest ih =>
    obtain ⟨a', b'⟩ := p
    simp only [keysL_cons, List.nodup_cons] at h
    by_cases ha : a' = a
    · subst ha
      rw [insertK_cons_eq]
      simp only [keysL_cons, List.nodup_cons]
      exact ⟨h.1, h.2⟩
    · rw [insertK_cons_ne ha]
      simp only [keysL_cons, List.nodup_cons]
      refine ⟨fun hmem => ?_, ih h.2⟩
      rcases mem_keysL_insertK.1 hmem with rfl | hmem2
      · exact ha rfl
      · exact h.1 hmem2

theorem length_insertK_of_mem (h : a ∈ keysL m) :
    (insertK a b m).length = m.length := by
  induction m with
  | nil => simp at h
  | cons p rest ih =>
    obtain ⟨a', b'⟩ := p
    simp only [keysL_cons, List.mem_cons] at h
    by_cases ha : a' = a
    · simp [insertK, ha]
    · rcases h with he | hm
      · exact absurd he.symm ha
      · simp [insertK, ha, ih hm]

theorem lookupK_insertK {x : Nat} :
    lookupK x (insertK a b m) = if x = a then some b else lookupK x m := by
  induction m with
  | nil => by_cases h : x = a <;> simp [insertK, lookupK, h, Ne.symm]
  | cons p rest ih =>
    obtain ⟨a', b'⟩ := p
    by_cases ha : a' = a
    · subst ha
      by_cases hx : x = a' <;> simp [insertK, lookupK, hx, Ne.symm, ih]
    · rw [insertK_cons_ne ha]
      by_cases hx : a' = x
      · have hxa : ¬x = a := fun he => ha (hx.trans he)
        simp [lookupK, hx, hxa]
      · simp [lookupK, hx, ih]

end AssocLemmas

section CacheLemmas

variable {st : PoolState} {a x : Nat} {s : Svc}

@[simp]
theorem cachePush_endpoints : (cachePush a s st).endpoints = st.endpoints := rfl

@[simp]
theorem cachePush_gauge : (cachePush a s st).gauge = st.gauge := rfl

@[simp]
theorem cachePush_next_idx : (cachePush a s st).next_idx = st.next_idx := rfl

@[simp]
theorem cacheEvict_endpoints : (cacheEvict a st).endpoints = st.endpoints := rfl

@[simp]
theorem cacheEvict_gauge : (cacheEvict a st).gauge = st.gauge := rfl

@[simp]
theorem cacheEvict_next_idx : (cacheEvict a st).next_idx = st.next_idx := rfl

theorem mem_cacheKeys_push :
    x ∈ cacheKeys (cachePush a s st) ↔ x = a ∨ x ∈ cacheKeys st := by
  by_cases hx : x = a
  · subst hx
    simp [cacheKeys, cachePush]
  · simp only [cacheKeys, cachePush, keysL_append, List.mem_append, keysL_cons, keysL_nil,
      List.mem_cons, List.not_mem_nil, or_false]
    rw [mem_keysL_eraseK_of_ne hx, mem_keysL_eraseK_of_ne hx]
    tauto

theorem nodup_cacheKeys_push (h : (cacheKeys st).Nodup) :
    (cacheKeys (cachePush a s st)).Nodup := by
  rcases List.nodup_append.1 h with ⟨hp, hr, hd⟩
  have hsubP : ∀ y, y ∈ keysL (eraseK a st.pendingQ) → y ∈ keysL st.pendingQ :=
    fun y hy => keysL_eraseK_sublist.subset hy
  have hsubR : ∀ y, y ∈ keysL (eraseK a st.readyQ) → y ∈ keysL st.readyQ :=
    fun y hy => keysL_eraseK_sublist.subset hy
  simp only [cacheKeys, cachePush, keysL_append, keysL_cons, keysL_nil]
  refine List.nodup_append.2 ⟨?_, nodup_keysL_eraseK hr, ?_⟩
  · refine List.nodup_append.2 ⟨nodup_keysL_eraseK hp, List.nodup_singleton a, ?_⟩
    intro y hy hya
    rcases List.mem_singleton.1 hya with rfl
    exact not_mem_keysL_eraseK hp hy
  · intro y hy hyR
    rcases List.mem_append.1 hy with hyP | hya
    · exact hd (hsubP y hyP) (hsubR y hyR)
    · rcases List.mem_singleton.1 hya with rfl
      exact not_mem_keysL_eraseK hr hyR

theorem mem_cacheKeys_evict_of_ne (hx : x ≠ a) :
    x ∈ cacheKeys (cacheEvict a st) ↔ x ∈ cacheKeys st := by
  simp only [cacheKeys, cacheEvict, List.mem_append]
  rw [mem_keysL_eraseK_of_ne hx, mem_keysL_eraseK_of_ne hx]

theorem not_mem_cacheKeys_evict (h : (cacheKeys st).Nodup) :
    a ∉ cacheKeys (cacheEvict a st) := by
  rcases List.nodup_append.1 h with ⟨hp, hr, _⟩
  intro hmem
  rcases List.mem_append.1 hmem with hy | hy
  · exact not_mem_keysL_eraseK hp hy
  · exact not_mem_keysL_eraseK hr hy

theorem cacheKeys_evict_sublist : List.Sublist (cacheKeys (cacheEvict a st)) (cacheKeys st) :=
  List.Sublist.append keysL_eraseK_sublist keysL_eraseK_sublist

theorem nodup_cacheKeys_evict (h : (cacheKeys st).Nodup) :
    (cacheKeys (cacheEvict a st)).Nodup :=
  List.Nodup.sublist cacheKeys_evict_sublist h

end CacheLemmas

section Selector

theorem genRange_lt {rng : List Nat} {n : Nat} (h : 0 < n) : (genRange rng n).1 < n := by
  cases rng with
  | nil => simpa [genRange] using h
  | cons d r =>
    simp only [genRange]
    exact Nat.mod_lt _ h

theorem gen_pair_spec {rng : List Nat} {len : Nat} (h : 2 ≤ len) :
    (gen_pair rng len).1.1 < len ∧ (gen_pair rng len).1.2 < len ∧
      (gen_pair rng len).1.1 ≠ (gen_pair rng len).1.2 := by
  have h1 : 0 < len := by omega
  have h2 : 0 < len - 1 := by omega
  have hal : (genRange rng len).1 < len := genRange_lt h1
  have hbl : (genRange (genRange rng len).2 (len - 1)).1 < len - 1 := genRange_lt h2
  simp only [gen_pair]
  split_ifs with hba
  · exact ⟨hal, by omega, by omega⟩
  · exact ⟨hal, by omega, by omega⟩

theorem p2cReadyIndex_of_two_le {st : PoolState} (h : 2 ≤ st.readyQ.length) :
    p2cReadyIndex st =
      (some (if loadAt st (gen_pair st.rng st.readyQ.length).1.1 ≤
               loadAt st (gen_pair st.rng st.readyQ.length).1.2
             then (gen_pair st.rng st.readyQ.length).1.1
             else (gen_pair st.rng st.readyQ.length).1.2),
       { st with rng := (gen_pair st.rng st.readyQ.length).2 }) := by
  have h0 : ¬st.readyQ.length = 0 := by omega
  have h1 : ¬st.readyQ.length = 1 := by omega
  simp only [p2cReadyIndex, if_neg h0, if_neg h1]

end Selector

section Frame

theorem frame_cReset {s1 s2 : PoolState} (h : frameOf s1 = frameOf s2) :
    s1.cReset = s2.cReset := congrArg (fun x => x.1.1) h

theorem frame_cAdd {s1 s2 : PoolState} (h : frameOf s1 = frameOf s2) :
    s1.cAdd = s2.cAdd := congrArg (fun x => x.1.2.1) h

theorem frame_cRm {s1 s2 : PoolState} (h : frameOf s1 = frameOf s2) :
    s1.cRm = s2.cRm := congrArg (fun x => x.1.2.2.1) h

theorem frame_cDne {s1 s2 : PoolState} (h : frameOf s1 = frameOf s2) :
    s1.cDne = s2.cDne := congrArg (fun x => x.1.2.2.2) h

theorem frame_next_idx {s1 s2 : PoolState} (h : frameOf s1 = frameOf s2) :
    s1.next_idx = s2.next_idx := congrArg (fun x => x.2.1) h

theorem resetLoop_frame (f : Nat → Nat → Svc) :
    ∀ (L : List (Nat × Nat)) (st : PoolState) (rem : List (Nat × Nat)) (ch : Bool)
      (evs : List Event), frameOf (resetLoop f L st rem ch evs).1 = frameOf st := by
  intro L
  induction L with
  | nil => intro st rem ch evs; rfl
  | cons p rest ih =>
    intro st rem ch evs
    obtain ⟨a, t⟩ := p
    by_cases h : lookupK a rem = some t
    · simp only [resetLoop, if_pos h]
      exact ih _ _ _ _
    · by_cases h0 : lookupK a rem = none
      · simp only [resetLoop, if_neg h, if_pos h0]
        exact ih _ _ _ _
      · simp only [resetLoop, if_neg h, if_neg h0]
        exact ih _ _ _ _

theorem evictAll_frame :
    ∀ (rem : List (Nat × Nat)) (st : PoolState) (ch : Bool) (evs : List Event),
      frameOf (evictAll rem st ch evs).1 = frameOf st := by
  intro rem
  induction rem with
  | nil => intro st ch evs; rfl
  | cons p rest ih =>
    intro st ch evs
    obtain ⟨a, t⟩ := p
    simp only [evictAll]
    exact ih _ _ _

theorem addLoop_frame (f : Nat → Nat → Svc) :
    ∀ (L : List (Nat × Nat)) (st : PoolState) (ch : Bool) (evs : List Event),
      frameOf (addLoop f L st ch evs).1 = frameOf st := by
  intro L
  induction L with
  | nil => intro st ch evs; rfl
  | cons p rest ih =>
    intro st ch evs
    obtain ⟨a, t⟩ := p
    cases h : lookupK a st.endpoints with
    | some t' =>
      by_cases ht : t' = t
      · simp only [addLoop, h, if_pos ht]
        exact ih _ _ _
      · simp only [addLoop, h, if_neg ht]
        exact ih _ _ _
    | none =>
      simp only [addLoop, h]
      exact ih _ _ _

theorem removeLoop_frame :
    ∀ (addrs : List Nat) (st : PoolState) (ch : Bool) (evs : List Event),
      frameOf (removeLoop addrs st ch evs).1 = frameOf st := by
  intro addrs
  induction addrs with
  | nil => intro st ch evs; rfl
  | cons a rest ih =>
    intro st ch evs
    cases h : lookupK a st.endpoints with
    | some t' =>
      simp only [removeLoop, h]
      exact ih _ _ _
    | none =>
      simp only [removeLoop, h]
      exact ih _ _ _

theorem applyUpdate_frame (f : Nat → Nat → Svc) (st : PoolState) (u : Update) :
    frameOf (applyUpdate f st u).1 = frameOf st := by
  cases u with
  | reset targets =>
    show frameOf (resetFn f st targets).1 = frameOf st
    unfold resetFn
    exact (evictAll_frame _ _ _ _).trans (resetLoop_frame f _ _ _ _ _)
  | add targets => exact addLoop_frame f _ _ _ _
  | remove addrs => exact removeLoop_frame _ _ _ _
  | doesNotExist =>
    show frameOf (clearFn st).1 = frameOf st
    unfold clearFn
    exact evictAll_frame _ _ _ _

theorem updatePool_counters_eq (f : Nat → Nat → Svc) (st : PoolState) (u : Update) :
    (updatePool f st u).cReset = (incCounter st u).cReset ∧
    (updatePool f st u).cAdd = (incCounter st u).cAdd ∧
    (updatePool f st u).cRm = (incCounter st u).cRm ∧
    (updatePool f st u).cDne = (incCounter st u).cDne := by
  have h := applyUpdate_frame f (incCounter st u) u
  refine ⟨?_, ?_, ?_, ?_⟩ <;>
    simp only [updatePool, updatePoolE]
  · split
    · show (applyUpdate f (incCounter st u) u).1.cReset = _
      exact frame_cReset h
    · exact frame_cReset h
  · split
    · show (applyUpdate f (incCounter st u) u).1.cAdd = _
      exact frame_cAdd h
    · exact frame_cAdd h
  · split
    · show (applyUpdate f (incCounter st u) u).1.cRm = _
      exact frame_cRm h
    · exact frame_cRm h
  · split
    · show (applyUpdate f (incCounter st u) u).1.cDne = _
      exact frame_cDne h
    · exact frame_cDne h

end Frame

section Counters

theorem updatePool_cReset (f : Nat → Nat → Svc) (st : PoolState) (u : Update) :
    (updatePool f st u).cReset = st.cReset + (if isResetU u then 1 else 0) := by
  rw [(updatePool_counters_eq f st u).1]
  cases u <;> simp [incCounter, isResetU]

theorem updatePool_cAdd (f : Nat → Nat → Svc) (st : PoolState) (u : Update) :
    (updatePool f st u).cAdd = st.cAdd + (if isAddU u then 1 else 0) := by
  rw [(updatePool_counters_eq f st u).2.1]
  cases u <;> simp [incCounter, isAddU]

theorem updatePool_cRm (f : Nat → Nat → Svc) (st : PoolState) (u : Update) :
    (updatePool f st u).cRm = st.cRm + (if isRemoveU u then 1 else 0) := by
  rw [(updatePool_counters_eq f st u).2.2.1]
  cases u <;> simp [incCounter, isRemoveU]

theorem updatePool_cDne (f : Nat → Nat → Svc) (st : PoolState) (u : Update) :
    (updatePool f st u).cDne = st.cDne + (if isDneU u then 1 else 0) := by
  rw [(updatePool_counters_eq f st u).2.2.2]
  cases u <;> simp [incCounter, isDneU]

theorem applyUpdates_cReset (f : Nat → Nat → Svc) :
    ∀ (us : List Update) (st : PoolState),
      (applyUpdates f st us).cReset = st.cReset + us.countP isResetU := by
  intro us
  induction us with
  | nil => intro st; simp [applyUpdates]
  | cons u rest ih =>
    intro st
    simp only [applyUpdates]
    rw [ih, updatePool_cReset, List.countP_cons]
    split_ifs
    all_goals omega

theorem applyUpdates_cAdd (f : Nat → Nat → Svc) :
    ∀ (us : List Update) (st : PoolState),
      (applyUpdates f st us).cAdd = st.cAdd + us.countP isAddU := by
  intro us
  induction us with
  | nil => intro st; simp [applyUpdates]
  | cons u rest ih =>
    intro st
    simp only [applyUpdates]
    rw [ih, updatePool_cAdd, List.countP_cons]
    split_ifs
    all_goals omega

theorem applyUpdates_cRm (f : Nat → Nat → Svc) :
    ∀ (us : List Update) (st : PoolState),
      (applyUpdates f st us).cRm = st.cRm + us.countP isRemoveU := by
  intro us
  induction us with
  | nil => intro st; simp [applyUpdates]
  | cons u rest ih =>
    intro st
    simp only [applyUpdates]
    rw [ih, updatePool_cRm, List.countP_cons]
    split_ifs
    all_goals omega

theorem applyUpdates_cDne (f : Nat → Nat → Svc) :
    ∀ (us : List Update) (st : PoolState),
      (applyUpdates f st us).cDne = st.cDne + us.countP isDneU := by
  intro us
  induction us with
  | nil => intro st; simp [applyUpdates]
  | cons u rest ih =>
    intro st
    simp only [applyUpdates]
    rw [ih, updatePool_cDne, List.countP_cons]
    split_ifs
    all_goals omega

end Counters

/-- C1: the P2C selector returns none for an empty ready set, index 0 for a
singleton ready set, and for `len ≥ 2` draws `a` uniformly from `[0, len)`
and `b` from `[0, len - 1)`, shifts `b` up by one when `b ≥ a` — so the two
indices are distinct and both lie in `[0, len)` for every RNG state — and
returns `a` when `load a ≤ load b`, otherwise `b` (ties favour `a`). -/
theorem c1_p2c_selector (st : PoolState) :
    (st.readyQ.length = 0 → p2cReadyIndex st = (none, st)) ∧
    (st.readyQ.length = 1 → p2cReadyIndex st = (some 0, st)) ∧
    (2 ≤ st.readyQ.length →
      ∃ a b rng', gen_pair st.rng st.readyQ.length = ((a, b), rng') ∧
        a < st.readyQ.length ∧ b < st.readyQ.length ∧ a ≠ b ∧
        p2cReadyIndex st =
          (some (if loadAt st a ≤ loadAt st b then a else b), { st with rng := rng' })) ∧
    (∀ d1 d2 r, st.rng = d1 :: d2 :: r →
      gen_pair st.rng st.readyQ.length =
        ((d1 % st.readyQ.length,
          if d2 % (st.readyQ.length - 1) ≥ d1 % st.readyQ.length
          then d2 % (st.readyQ.length - 1) + 1
          else d2 % (st.readyQ.length - 1)), r)) := by
  refine ⟨?_, ?_, ?_, ?_⟩
  · intro h
    simp [p2cReadyIndex, h]
  · intro h
    simp [p2cReadyIndex, h]
  · intro h
    obtain ⟨h1, h2, h3⟩ := @gen_pair_spec st.rng st.readyQ.length h
    exact ⟨(gen_pair st.rng st.readyQ.length).1.1, (gen_pair st.rng st.readyQ.length).1.2,
      (gen_pair st.rng st.readyQ.length).2, rfl, h1, h2, h3, p2cReadyIndex_of_two_le h⟩
  · intro d1 d2 r hr
    simp [gen_pair, genRange, hr]

/-- Witness for C1 at the concrete state `stW`. -/
theorem c1_p2c_selector_witness :
    2 ≤ stW.readyQ.length ∧
    (∃ a b rng', gen_pair stW.rng stW.readyQ.length = ((a, b), rng') ∧
      a < stW.readyQ.length ∧ b < stW.readyQ.length ∧ a ≠ b ∧
      p2cReadyIndex stW =
        (some (if loadAt stW a ≤ loadAt stW b then a else b), { stW with rng := rng' })) :=
  ⟨by decide, (c1_p2c_selector stW).2.2.1 (by decide)⟩

/-- C7: every `update_pool` call increments exactly the counter matching the
update's variant by one (the other three are unchanged), regardless of
whether the update changed the membership; hence after any update sequence
each counter equals the number of updates of its variant. -/
theorem c7_update_counters :
    (∀ (f : Nat → Nat → Svc) (st : PoolState) (u : Update),
      (updatePool f st u).cReset = st.cReset + (if isResetU u then 1 else 0) ∧
      (updatePool f st u).cAdd = st.cAdd + (if isAddU u then 1 else 0) ∧
      (updatePool f st u).cRm = st.cRm + (if isRemoveU u then 1 else 0) ∧
      (updatePool f st u).cDne = st.cDne + (if isDneU u then 1 else 0)) ∧
    (∀ u : Update,
      (if isResetU u then 1 else 0) + (if isAddU u then 1 else 0) +
        (if isRemoveU u then 1 else 0) + (if isDneU u then 1 else 0) = 1) ∧
    (∀ (f : Nat → Nat → Svc) (rng : List Nat) (us : List Update),
      (applyUpdates f (initPool rng) us).cReset = us.countP isResetU ∧
      (applyUpdates f (initPool rng) us).cAdd = us.countP isAddU ∧
      (applyUpdates f (initPool rng) us).cRm = us.countP isRemoveU ∧
      (applyUpdates f (initPool rng) us).cDne = us.countP isDneU) := by
  refine ⟨?_, ?_, ?_⟩
  · intro f st u
    exact ⟨updatePool_cReset f st u, updatePool_cAdd f st u, updatePool_cRm f st u,
      updatePool_cDne f st u⟩
  · intro u
    cases u <;> simp [isResetU, isAddU, isRemoveU, isDneU]
  · intro f rng us
    refine ⟨?_, ?_, ?_, ?_⟩
    · simpa [initPool] using applyUpdates_cReset f us (initPool rng)
    · simpa [initPool] using applyUpdates_cAdd f us (initPool rng)
    · simpa [initPool] using applyUpdates_cRm f us (initPool rng)
    · simpa [initPool] using applyUpdates_cDne f us (initPool rng)

/-- C9: the twelve-step update trace of scenario S1, applied to an empty
pool, ends with an empty registry, gauge 0, and counters reset=5, add=3,
remove=2, dne=2. -/
theorem c9_update_trace :
    (applyUpdates f0 (initPool []) trace9).endpoints = [] ∧
    (applyUpdates f0 (initPool []) trace9).gauge = 0 ∧
    (applyUpdates f0 (initPool []) trace9).cReset = 5 ∧
    (applyUpdates f0 (initPool []) trace9).cAdd = 3 ∧
    (applyUpdates f0 (initPool []) trace9).cRm = 2 ∧
    (applyUpdates f0 (initPool []) trace9).cDne = 2 := by
  decide

section Coherence

theorem mem_keysL_of_lookupK {β : Type} {a : Nat} {b : β} {m : List (Nat × β)}
    (h : lookupK a m = some b) : a ∈ keysL m :=
  mem_keysL.2 ⟨b, lookupK_mem h⟩

theorem cacheKeys_endpoints_update {st : PoolState} {E : List (Nat × Nat)} :
    cacheKeys { st with endpoints := E } = cacheKeys st := rfl

theorem cacheKeys_gauge_update {st : PoolState} {g : Int} :
    cacheKeys { st with gauge := g } = cacheKeys st := rfl

@[simp]
theorem endpoints_gauge_update {st : PoolState} {g : Int} :
    ({ st with gauge := g } : PoolState).endpoints = st.endpoints := rfl

theorem resetLoop_coh (f : Nat → Nat → Svc) :
    ∀ (L : List (Nat × Nat)) (st : PoolState) (rem : List (Nat × Nat)) (ch : Bool)
      (evs : List Event),
      (keysL st.endpoints).Nodup → (keysL rem).Nodup → (cacheKeys st).Nodup →
      (∀ x, x ∈ keysL st.endpoints → x ∉ keysL rem) →
      (∀ x, x ∈ cacheKeys st ↔ x ∈ keysL st.endpoints ∨ x ∈ keysL rem) →
      (keysL (resetLoop f L st rem ch evs).1.endpoints).Nodup ∧
      (keysL (resetLoop f L st rem ch evs).2.1).Nodup ∧
      (cacheKeys (resetLoop f L st rem ch evs).1).Nodup ∧
      (∀ x, x ∈ keysL (resetLoop f L st rem ch evs).1.endpoints →
        x ∉ keysL (resetLoop f L st rem ch evs).2.1) ∧
      (∀ x, x ∈ cacheKeys (resetLoop f L st rem ch evs).1 ↔
        x ∈ keysL (resetLoop f L st rem ch evs).1.endpoints ∨
        x ∈ keysL (resetLoop f L st rem ch evs).2.1) := by
  intro L
  induction L with
  | nil =>
    intro st rem ch evs hE hR hC hD hCoh
    exact ⟨hE, hR, hC, hD, hCoh⟩
  | cons p rest ih =>
    intro st rem ch evs hE hR hC hD hCoh
    obtain ⟨a, t⟩ := p
    by_cases h : lookupK a rem = some t
    · have ha_rem : a ∈ keysL rem := mem_keysL_of_lookupK h
      have ha_E : a ∉ keysL st.endpoints := fun hmem => hD a hmem ha_rem
      simp only [resetLoop, if_pos h]
      apply ih
      · exact nodup_keysL_insertK hE
      · exact nodup_keysL_eraseK hR
      · exact hC
      · intro x hx
        rcases mem_keysL_insertK.1 hx with rfl | hx2
        · exact not_mem_keysL_eraseK hR
        · exact fun hx3 => hD x hx2 (keysL_eraseK_sublist.subset hx3)
      · intro x
        show x ∈ cacheKeys st ↔ _
        by_cases hxa : x = a
        · subst hxa
          constructor
          · intro _
            exact Or.inl (mem_keysL_insertK.2 (Or.inl rfl))
          · intro _
            exact (hCoh x).2 (Or.inr ha_rem)
        · rw [mem_keysL_eraseK_of_ne hxa, hCoh x, mem_keysL_insertK]
          tauto
    · simp only [resetLoop, if_neg h]
      apply ih
      · exact nodup_keysL_insertK hE
      · exact nodup_keysL_eraseK hR
      · exact nodup_cacheKeys_push hC
      · intro x hx
        rcases mem_keysL_insertK.1 hx with rfl | hx2
        · exact not_mem_keysL_eraseK hR
        · exact fun hx3 => hD x hx2 (keysL_eraseK_sublist.subset hx3)
      · intro x
        show x ∈ cacheKeys (cachePush a (f a t) _) ↔ _
        rw [mem_cacheKeys_push]
        show _ ↔ x ∈ keysL (insertK a t st.endpoints) ∨ _
        by_cases hxa : x = a
        · subst hxa
          simp [mem_keysL_insertK]
        · rw [mem_keysL_eraseK_of_ne hxa, mem_keysL_insertK]
          show x = a ∨ x ∈ cacheKeys { st with gauge := _ } ↔ _
          rw [cacheKeys_gauge_update, hCoh x]
          tauto

theorem evictAll_coh :
    ∀ (rem : List (Nat × Nat)) (st : PoolState) (ch : Bool) (evs : List Event),
      (keysL st.endpoints).Nodup → (keysL rem).Nodup → (cacheKeys st).Nodup →
      (∀ x, x ∈ keysL st.endpoints → x ∉ keysL rem) →
      (∀ x, x ∈ cacheKeys st ↔ x ∈ keysL st.endpoints ∨ x ∈ keysL rem) →
      (keysL (evictAll rem st ch evs).1.endpoints).Nodup ∧
      (cacheKeys (evictAll rem st ch evs).1).Nodup ∧
      (∀ x, x ∈ cacheKeys (evictAll rem st ch evs).1 ↔
        x ∈ keysL (evictAll rem st ch evs).1.endpoints) := by
  intro rem
  induction rem with
  | nil =>
    intro st ch evs hE _ hC _ hCoh
    refine ⟨hE, hC, fun x => ?_⟩
    show x ∈ cacheKeys st ↔ x ∈ keysL st.endpoints
    rw [hCoh x]
    simp
  | cons p rest ih =>
    intro st ch evs hE hR hC hD hCoh
    obtain ⟨a, t⟩ := p
    simp only [keysL_cons, List.nodup_cons] at hR
    have ha_E : a ∉ keysL st.endpoints := fun hmem => hD a hmem (List.mem_cons_self a _)
    simp only [evictAll]
    apply ih
    · exact hE
    · exact hR.2
    · show (cacheKeys (cacheEvict a st)).Nodup
      exact nodup_cacheKeys_evict hC
    · intro x hx hx2
      exact hD x hx (List.mem_cons_of_mem _ hx2)
    · intro x
      show x ∈ cacheKeys (cacheEvict a st) ↔ x ∈ keysL st.endpoints ∨ x ∈ keysL rest
      by_cases hxa : x = a
      · subst hxa
        constructor
        · intro hmem
          exact absurd hmem (not_mem_cacheKeys_evict hC)
        · rintro (hmem | hmem)
          · exact absurd hmem ha_E
          · exact absurd hmem hR.1
      · rw [mem_cacheKeys_evict_of_ne hxa, hCoh x]
        simp only [keysL_cons, List.mem_cons]
        tauto

theorem resetFn_coh (f : Nat → Nat → Svc) (st : PoolState) (targets : List (Nat × Nat))
    (h : Coh st) : Coh (resetFn f st targets).1 := by
  obtain ⟨hE, hC, hCoh⟩ := h
  have h5 := resetLoop_coh f targets { st with endpoints := [] } st.endpoints false []
    List.nodup_nil hE hC (fun x hx => absurd hx (List.not_mem_nil x))
    (fun x => by
      show x ∈ cacheKeys st ↔ x ∈ keysL ([] : List (Nat × Nat)) ∨ x ∈ keysL st.endpoints
      simp only [keysL_nil, List.not_mem_nil, false_or]
      exact (hCoh x).symm)
  have h3 := evictAll_coh
    (resetLoop f targets { st with endpoints := [] } st.endpoints false []).2.1
    (resetLoop f targets { st with endpoints := [] } st.endpoints false []).1
    (resetLoop f targets { st with endpoints := [] } st.endpoints false []).2.2.1
    (resetLoop f targets { st with endpoints := [] } st.endpoints false []).2.2.2
    h5.1 h5.2.1 h5.2.2.1 h5.2.2.2.1 h5.2.2.2.2
  exact ⟨h3.1, h3.2.1, fun x => (h3.2.2 x).symm⟩

theorem addLoop_coh (f : Nat → Nat → Svc) :
    ∀ (L : List (Nat × Nat)) (st : PoolState) (ch : Bool) (evs : List Event),
      Coh st → Coh (addLoop f L st ch evs).1 := by
  intro L
  induction L with
  | nil => intro st ch evs h; exact h
  | cons p rest ih =>
    intro st ch evs h
    obtain ⟨hE, hC, hCoh⟩ := h
    obtain ⟨a, t⟩ := p
    cases hl : lookupK a st.endpoints with
    | some t' =>
      by_cases ht : t' = t
      · simp only [addLoop, hl, if_pos ht]
        exact ih _ _ _ ⟨hE, hC, hCoh⟩
      · simp only [addLoop, hl, if_neg ht]
        apply ih
        refine ⟨nodup_keysL_insertK hE, nodup_cacheKeys_push hC, fun x => ?_⟩
        show x ∈ keysL (insertK a t st.endpoints) ↔ x ∈ cacheKeys (cachePush a (f a t) _)
        rw [mem_keysL_insertK, mem_cacheKeys_push]
        show _ ↔ _ ∨ x ∈ cacheKeys { st with endpoints := insertK a t st.endpoints }
        rw [cacheKeys_endpoints_update, ← hCoh x]
    | none =>
      simp only [addLoop, hl]
      apply ih
      refine ⟨nodup_keysL_insertK hE, nodup_cacheKeys_push hC, fun x => ?_⟩
      show x ∈ keysL (insertK a t st.endpoints) ↔ x ∈ cacheKeys (cachePush a (f a t) _)
      rw [mem_keysL_insertK, mem_cacheKeys_push]
      have : cacheKeys { st with endpoints := insertK a t st.endpoints, gauge := st.gauge + 1 }
          = cacheKeys st := rfl
      rw [this, ← hCoh x]

theorem removeLoop_coh :
    ∀ (addrs : List Nat) (st : PoolState) (ch : Bool) (evs : List Event),
      Coh st → Coh (removeLoop addrs st ch evs).1 := by
  intro addrs
  induction addrs with
  | nil => intro st ch evs h; exact h
  | cons a rest ih =>
    intro st ch evs h
    obtain ⟨hE, hC, hCoh⟩ := h
    cases hl : lookupK a st.endpoints with
    | some t' =>
      simp only [removeLoop, hl]
      apply ih
      refine ⟨nodup_keysL_eraseK hE, ?_, fun x => ?_⟩
      · show (cacheKeys (cacheEvict a _)).Nodup
        exact nodup_cacheKeys_evict hC
      · show x ∈ keysL (eraseK a st.endpoints) ↔
          x ∈ cacheKeys (cacheEvict a { st with endpoints := eraseK a st.endpoints })
      -- the registry update does not change the cache
        have hck : cacheKeys (cacheEvict a { st with endpoints := eraseK a st.endpoints })
            = cacheKeys (cacheEvict a st) := rfl
        rw [hck]
        by_cases hxa : x = a
        · subst hxa
          constructor
          · intro hmem
            exact absurd hmem (not_mem_keysL_eraseK hE)
          · intro hmem
            exact absurd hmem (not_mem_cacheKeys_evict hC)
        · rw [mem_keysL_eraseK_of_ne hxa, mem_cacheKeys_evict_of_ne hxa]
          exact hCoh x
    | none =>
      simp only [removeLoop, hl]
      exact ih _ _ _ ⟨hE, hC, hCoh⟩

theorem clearFn_coh (st : PoolState) (h : Coh st) : Coh (clearFn st).1 := by
  obtain ⟨hE, hC, hCoh⟩ := h
  have h3 := evictAll_coh st.endpoints { st with endpoints := [] } false []
    List.nodup_nil hE hC (fun x hx => absurd hx (List.not_mem_nil x))
    (fun x => by
      show x ∈ cacheKeys st ↔ x ∈ keysL ([] : List (Nat × Nat)) ∨ x ∈ keysL st.endpoints
      simp only [keysL_nil, List.not_mem_nil, false_or]
      exact (hCoh x).symm)
  exact ⟨h3.1, h3.2.1, fun x => (h3.2.2 x).symm⟩

theorem coh_incCounter (st : PoolState) (u : Update) (h : Coh st) : Coh (incCounter st u) := by
  cases u <;> exact h

theorem applyUpdate_coh (f : Nat → Nat → Svc) (st : PoolState) (u : Update) (h : Coh st) :
    Coh (applyUpdate f st u).1 := by
  cases u with
  | reset targets => exact resetFn_coh f st targets h
  | add targets => exact addLoop_coh f targets st false [] h
  | remove addrs => exact removeLoop_coh addrs st false [] h
  | doesNotExist => exact clearFn_coh st h

theorem updatePool_coh (f : Nat → Nat → Svc) (st : PoolState) (u : Update) (h : Coh st) :
    Coh (updatePool f st u) := by
  have h2 := applyUpdate_coh f (incCounter st u) u (coh_incCounter st u h)
  simp only [updatePool, updatePoolE]
  split
  · exact h2
  · exact h2

theorem applyUpdates_coh (f : Nat → Nat → Svc) :
    ∀ (us : List Update) (st : PoolState), Coh st → Coh (applyUpdates f st us) := by
  intro us
  induction us with
  | nil => intro st h; exact h
  | cons u rest ih =>
    intro st h
    exact ih _ (updatePool_coh f st u h)

theorem coh_initPool (rng : List Nat) : Coh (initPool rng) := by
  refine ⟨by simp [initPool], by simp [initPool, cacheKeys], fun x => ?_⟩
  simp [initPool, cacheKeys]

/-- C4: after any sequence of updates applied from the empty pool, an
address is a key of the endpoints registry iff the readiness cache holds
exactly one entry (pending or ready) for that address. -/
theorem c4_registry_cache_coherence (f : Nat → Nat → Svc) (rng : List Nat)
    (us : List Update) (a : Nat) :
    a ∈ keysL (applyUpdates f (initPool rng) us).endpoints ↔
      (cacheKeys (applyUpdates f (initPool rng) us)).count a = 1 := by
  obtain ⟨hE, hC, hCoh⟩ := applyUpdates_coh f us (initPool rng) (coh_initPool rng)
  constructor
  · intro h
    exact List.count_eq_one_of_mem hC ((hCoh a).1 h)
  · intro h
    refine (hCoh a).2 ?_
    have : 0 < (cacheKeys (applyUpdates f (initPool rng) us)).count a := by omega
    exact List.count_pos_iff.1 this

end Coherence

section Gauge

theorem evictAll_gauge :
    ∀ (rem : List (Nat × Nat)) (st : PoolState) (ch : Bool) (evs : List Event),
      (evictAll rem st ch evs).1.gauge = st.gauge - rem.length := by
  intro rem
  induction rem with
  | nil => intro st ch evs; simp [evictAll]
  | cons p rest ih =>
    intro st ch evs
    obtain ⟨a, t⟩ := p
    simp only [evictAll]
    rw [ih]
    show st.gauge - 1 - (rest.length : Int) = st.gauge - ((rest.length : Int) + 1)
    omega

theorem evictAll_endpoints :
    ∀ (rem : List (Nat × Nat)) (st : PoolState) (ch : Bool) (evs : List Event),
      (evictAll rem st ch evs).1.endpoints = st.endpoints := by
  intro rem
  induction rem with
  | nil => intro st ch evs; rfl
  | cons p rest ih =>
    intro st ch evs
    obtain ⟨a, t⟩ := p
    simp only [evictAll]
    rw [ih]
    rfl

theorem resetLoop_gauge (f : Nat → Nat → Svc) :
    ∀ (L : List (Nat × Nat)) (st : PoolState) (rem : List (Nat × Nat)) (ch : Bool)
      (evs : List Event),
      (keysL L).Nodup →
      (keysL st.endpoints).Nodup → (keysL rem).Nodup →
      (∀ x, x ∈ keysL L → x ∉ keysL st.endpoints) →
      st.gauge = ((keysL st.endpoints).length : Int) + ((keysL rem).length : Int) →
      (resetLoop f L st rem ch evs).1.gauge =
        (((keysL (resetLoop f L st rem ch evs).1.endpoints).length : Int) +
          ((keysL (resetLoop f L st rem ch evs).2.1).length : Int)) := by
  intro L
  induction L with
  | nil =>
    intro st rem ch evs _ _ _ _ hg
    exact hg
  | cons p rest ih =>
    intro st rem ch evs hL hE hR hD hg
    obtain ⟨a, t⟩ := p
    simp only [keysL_cons, List.nodup_cons] at hL
    have ha_E : a ∉ keysL st.endpoints := hD a (List.mem_cons_self a _)
    have hlen_ins : (insertK a t st.endpoints).length = st.endpoints.length + 1 := by
      rw [insertK_of_not_mem ha_E, List.length_append]
      rfl
    have hD' : ∀ x, x ∈ keysL rest → x ∉ keysL (insertK a t st.endpoints) := by
      intro x hx hmem
      rcases mem_keysL_insertK.1 hmem with rfl | hmem2
      · exact hL.1 hx
      · exact hD x (List.mem_cons_of_mem _ hx) hmem2
    simp only [length_keysL] at hg
    by_cases h : lookupK a rem = some t
    · have ha_rem : a ∈ keysL rem := mem_keysL_of_lookupK h
      have hlen_er : (eraseK a rem).length + 1 = rem.length := by
        have := length_eraseK_of_mem (m := rem) ha_rem
        simpa using this
      have hg' : ({ st with endpoints := insertK a t st.endpoints } : PoolState).gauge =
          ((keysL (insertK a t st.endpoints)).length : Int) +
            ((keysL (eraseK a rem)).length : Int) := by
        show st.gauge = _
        simp only [length_keysL, hlen_ins]
        omega
      simp only [resetLoop, if_pos h]
      exact ih _ _ _ _ hL.2 (nodup_keysL_insertK hE) (nodup_keysL_eraseK hR) hD' hg'
    · cases h0 : lookupK a rem with
      | none =>
        have ha_rem : a ∉ keysL rem := lookupK_eq_none.1 h0
        have her : eraseK a rem = rem := eraseK_of_not_mem ha_rem
        have hg' : (cachePush a (f a t)
              { st with gauge := if lookupK a rem = none then st.gauge + 1 else st.gauge }
              : PoolState).gauge =
            ((keysL (insertK a t st.endpoints)).length : Int) +
              ((keysL (eraseK a rem)).length : Int) := by
          show (if lookupK a rem = none then st.gauge + 1 else st.gauge) = _
          rw [if_pos h0, her]
          simp only [length_keysL, hlen_ins]
          omega
        simp only [resetLoop, if_neg h]
        exact ih _ _ _ _ hL.2 (nodup_keysL_insertK hE) (nodup_keysL_eraseK hR) hD' hg'
      | some t' =>
        have ha_rem : a ∈ keysL rem := mem_keysL_of_lookupK h0
        have hlen_er : (eraseK a rem).length + 1 = rem.length := by
          have := length_eraseK_of_mem (m := rem) ha_rem
          simpa using this
        have hne : lookupK a rem ≠ none := by simp [h0]
        have hg' : (cachePush a (f a t)
              { st with gauge := if lookupK a rem = none then st.gauge + 1 else st.gauge }
              : PoolState).gauge =
            ((keysL (insertK a t st.endpoints)).length : Int) +
              ((keysL (eraseK a rem)).length : Int) := by
          show (if lookupK a rem = none then st.gauge + 1 else st.gauge) = _
          rw [if_neg hne]
          simp only [length_keysL, hlen_ins]
          omega
        simp only [resetLoop, if_neg h]
        exact ih _ _ _ _ hL.2 (nodup_keysL_insertK hE) (nodup_keysL_eraseK hR) hD' hg'

theorem resetLoop_endpoints_nodup (f : Nat → Nat → Svc) :
    ∀ (L : List (Nat × Nat)) (st : PoolState) (rem : List (Nat × Nat)) (ch : Bool)
      (evs : List Event), (keysL st.endpoints).Nodup →
      (keysL (resetLoop f L st rem ch evs).1.endpoints).Nodup := by
  intro L
  induction L with
  | nil => intro st rem ch evs hE; exact hE
  | cons p rest ih =>
    intro st rem ch evs hE
    obtain ⟨a, t⟩ := p
    by_cases h : lookupK a rem = some t
    · simp only [resetLoop, if_pos h]
      exact ih _ _ _ _ (nodup_keysL_insertK hE)
    · simp only [resetLoop, if_neg h]
      exact ih _ _ _ _ (nodup_keysL_insertK hE)

theorem resetFn_eq (f : Nat → Nat → Svc) (st : PoolState) (targets : List (Nat × Nat)) :
    resetFn f st targets =
      evictAll (resetLoop f targets { st with endpoints := [] } st.endpoints false []).2.1
        (resetLoop f targets { st with endpoints := [] } st.endpoints false []).1
        (resetLoop f targets { st with endpoints := [] } st.endpoints false []).2.2.1
        (resetLoop f targets { st with endpoints := [] } st.endpoints false []).2.2.2 := rfl

theorem clearFn_eq (st : PoolState) :
    clearFn st =
      ((evictAll st.endpoints { st with endpoints := [] } false []).1,
        !st.endpoints.isEmpty,
        (evictAll st.endpoints { st with endpoints := [] } false []).2.2) := rfl

theorem resetFn_gauge (f : Nat → Nat → Svc) (st : PoolState) (targets : List (Nat × Nat))
    (hL : (keysL targets).Nodup) (h : GaugeInv st) : GaugeInv (resetFn f st targets).1 := by
  obtain ⟨hE, hg⟩ := h
  have hr := resetLoop_gauge f targets { st with endpoints := [] } st.endpoints false []
    hL List.nodup_nil hE (fun x _ hmem => absurd hmem (List.not_mem_nil x))
    (by
      show st.gauge = ((keysL ([] : List (Nat × Nat))).length : Int) + _
      simpa using hg)
  have hnd := resetLoop_endpoints_nodup f targets { st with endpoints := [] } st.endpoints
    false [] List.nodup_nil
  rw [resetFn_eq]
  constructor
  · rw [evictAll_endpoints]
    exact hnd
  · rw [evictAll_gauge, evictAll_endpoints, hr]
    have h2 : ((keysL (resetLoop f targets { st with endpoints := [] } st.endpoints
        false []).2.1).length : Int) =
        ((resetLoop f targets { st with endpoints := [] } st.endpoints false []).2.1.length
          : Int) := by
      rw [length_keysL]
    omega

theorem addLoop_gauge (f : Nat → Nat → Svc) :
    ∀ (L : List (Nat × Nat)) (st : PoolState) (ch : Bool) (evs : List Event),
      GaugeInv st → GaugeInv (addLoop f L st ch evs).1 := by
  intro L
  induction L with
  | nil => intro st ch evs h; exact h
  | cons p rest ih =>
    intro st ch evs h
    obtain ⟨hE, hg⟩ := h
    obtain ⟨a, t⟩ := p
    cases hl : lookupK a st.endpoints with
    | some t' =>
      by_cases ht : t' = t
      · simp only [addLoop, hl, if_pos ht]
        exact ih _ _ _ ⟨hE, hg⟩
      · simp only [addLoop, hl, if_neg ht]
        apply ih
        refine ⟨nodup_keysL_insertK hE, ?_⟩
        show st.gauge = ((keysL (insertK a t st.endpoints)).length : Int)
        have ha : a ∈ keysL st.endpoints := mem_keysL_of_lookupK hl
        simp only [length_keysL] at hg
        simp only [length_keysL, length_insertK_of_mem ha]
        exact hg
    | none =>
      simp only [addLoop, hl]
      apply ih
      refine ⟨nodup_keysL_insertK hE, ?_⟩
      show st.gauge + 1 = ((keysL (insertK a t st.endpoints)).length : Int)
      have ha : a ∉ keysL st.endpoints := lookupK_eq_none.1 hl
      have hlen : (insertK a t st.endpoints).length = st.endpoints.length + 1 := by
        rw [insertK_of_not_mem ha, List.length_append]
        rfl
      simp only [length_keysL] at hg
      simp only [length_keysL, hlen]
      omega

theorem removeLoop_gauge :
    ∀ (addrs : List Nat) (st : PoolState) (ch : Bool) (evs : List Event),
      GaugeInv st → GaugeInv (removeLoop addrs st ch evs).1 := by
  intro addrs
  induction addrs with
  | nil => intro st ch evs h; exact h
  | cons a rest ih =>
    intro st ch evs h
    obtain ⟨hE, hg⟩ := h
    cases hl : lookupK a st.endpoints with
    | some t' =>
      simp only [removeLoop, hl]
      apply ih
      refine ⟨nodup_keysL_eraseK hE, ?_⟩
      show st.gauge - 1 = ((keysL (eraseK a st.endpoints)).length : Int)
      have ha : a ∈ keysL st.endpoints := mem_keysL_of_lookupK hl
      have hlen : (eraseK a st.endpoints).length + 1 = st.endpoints.length := by
        have := length_eraseK_of_mem (m := st.endpoints) ha
        simpa using this
      simp only [length_keysL] at hg
      simp only [length_keysL]
      omega
    | none =>
      simp only [removeLoop, hl]
      exact ih _ _ _ ⟨hE, hg⟩

theorem clearFn_gauge (st : PoolState) (h : GaugeInv st) : GaugeInv (clearFn st).1 := by
  obtain ⟨hE, hg⟩ := h
  rw [clearFn_eq]
  constructor
  · rw [evictAll_endpoints]
    exact List.nodup_nil
  · rw [evictAll_gauge, evictAll_endpoints]
    show ({ st with endpoints := ([] : List (Nat × Nat)) } : PoolState).gauge
        - st.endpoints.length = ((keysL ([] : List (Nat × Nat))).length : Int)
    simp only [length_keysL] at hg
    simp only [keysL_nil, List.length_nil]
    show st.gauge - st.endpoints.length = ((0 : Nat) : Int)
    omega

theorem gaugeInv_incCounter (st : PoolState) (u : Update) (h : GaugeInv st) :
    GaugeInv (incCounter st u) := by
  cases u <;> exact h

theorem updatePool_gauge (f : Nat → Nat → Svc) (st : PoolState) (u : Update)
    (h : GaugeInv st) (hu : ∀ l, u = Update.reset l → (keysL l).Nodup) :
    GaugeInv (updatePool f st u) := by
  have h2 : GaugeInv (applyUpdate f (incCounter st u) u).1 := by
    cases u with
    | reset targets =>
      exact resetFn_gauge f _ targets (hu targets rfl) (gaugeInv_incCounter st _ h)
    | add targets => exact addLoop_gauge f targets _ false [] (gaugeInv_incCounter st _ h)
    | remove addrs => exact removeLoop_gauge addrs _ false [] (gaugeInv_incCounter st _ h)
    | doesNotExist => exact clearFn_gauge _ (gaugeInv_incCounter st _ h)
  simp only [updatePool, updatePoolE]
  split
  · exact h2
  · exact h2

theorem applyUpdates_gauge (f : Nat → Nat → Svc) :
    ∀ (us : List Update) (st : PoolState), GaugeInv st →
      (∀ l, Update.reset l ∈ us → (keysL l).Nodup) →
      GaugeInv (applyUpdates f st us) := by
  intro us
  induction us with
  | nil => intro st h _; exact h
  | cons u rest ih =>
    intro st h hus
    refine ih _ (updatePool_gauge f st u h ?_) ?_
    · intro l hl
      exact hus l (by rw [hl]; exact List.mem_cons_self _ _)
    · intro l hl
      exact hus l (List.mem_cons_of_mem _ hl)

/-- C5: the claim as stated — gauge faithfulness for arbitrary update lists,
including lists that repeat an address — fails: a `Reset` whose list repeats
an address increments the gauge once per occurrence past the first, leaving
the gauge at 2 with a single registry key. -/
theorem c5_counterexample :
    (updatePool f0 (initPool []) (Update.reset [(0, 0), (0, 0)])).gauge = 2 ∧
    keysL (updatePool f0 (initPool []) (Update.reset [(0, 0), (0, 0)])).endpoints = [0] ∧
    (updatePool f0 (initPool []) (Update.reset [(0, 0), (0, 0)])).gauge ≠
      ((keysL (updatePool f0 (initPool [])
        (Update.reset [(0, 0), (0, 0)])).endpoints).length : Int) := by
  refine ⟨by decide, by decide, ?_⟩
  decide

/-- C5 (amended): after every update sequence in which no `Reset` list
repeats an address, the endpoint gauge equals the number of keys in the
registry. -/
theorem c5_gauge_faithfulness (f : Nat → Nat → Svc) (rng : List Nat) (us : List Update)
    (h : ∀ l, Update.reset l ∈ us → (keysL l).Nodup) :
    (applyUpdates f (initPool rng) us).gauge =
      ((keysL (applyUpdates f (initPool rng) us).endpoints).length : Int) :=
  (applyUpdates_gauge f us (initPool rng) ⟨List.nodup_nil, by simp [initPool]⟩ h).2

/-- Witness for the amended C5 on a concrete duplicate-free trace. -/
theorem c5_gauge_faithfulness_witness :
    (applyUpdates f0 (initPool []) [Update.reset [(0, 0), (1, 1)]]).gauge =
      ((keysL (applyUpdates f0 (initPool [])
        [Update.reset [(0, 0), (1, 1)]]).endpoints).length : Int) :=
  c5_gauge_faithfulness f0 [] [Update.reset [(0, 0), (1, 1)]] (by
    intro l hl
    simp only [List.mem_cons, List.not_mem_nil, or_false, Update.reset.injEq] at hl
    subst hl
    decide)

end Gauge

section NoopUpdates

theorem incCounter_frame (st : PoolState) (u : Update) :
    (incCounter st u).next_idx = st.next_idx ∧ (incCounter st u).pendingQ = st.pendingQ ∧
    (incCounter st u).readyQ = st.readyQ ∧ (incCounter st u).endpoints = st.endpoints ∧
    (incCounter st u).gauge = st.gauge := by
  cases u <;> exact ⟨rfl, rfl, rfl, rfl, rfl⟩

theorem updatePoolE_of_unchanged (f : Nat → Nat → Svc) (st : PoolState) (u : Update)
    (st2 : PoolState) (h : applyUpdate f (incCounter st u) u = (st2, false, [])) :
    updatePoolE f st u = (st2, false, []) := by
  simp only [updatePoolE, h]
  rfl

theorem resetLoop_endpoints_append (f : Nat → Nat → Svc) :
    ∀ (L : List (Nat × Nat)) (st : PoolState) (rem : List (Nat × Nat)) (ch : Bool)
      (evs : List Event), (keysL L).Nodup →
      (∀ x, x ∈ keysL L → x ∉ keysL st.endpoints) →
      (resetLoop f L st rem ch evs).1.endpoints = st.endpoints ++ L := by
  intro L
  induction L with
  | nil =>
    intro st rem ch evs _ _
    exact (List.append_nil _).symm
  | cons p rest ih =>
    intro st rem ch evs hL hD
    obtain ⟨a, t⟩ := p
    simp only [keysL_cons, List.nodup_cons] at hL
    have ha : a ∉ keysL st.endpoints := hD a (List.mem_cons_self a _)
    have hD' : ∀ x, x ∈ keysL rest → x ∉ keysL (insertK a t st.endpoints) := by
      intro x hx hmem
      rcases mem_keysL_insertK.1 hmem with rfl | hmem2
      · exact hL.1 hx
      · exact hD x (List.mem_cons_of_mem _ hx) hmem2
    by_cases h : lookupK a rem = some t
    · simp only [resetLoop, if_pos h]
      rw [ih _ _ _ _ hL.2 hD']
      show insertK a t st.endpoints ++ rest = _
      rw [insertK_of_not_mem ha, List.append_assoc, List.singleton_append]
    · simp only [resetLoop, if_neg h]
      rw [ih _ _ _ _ hL.2 hD']
      show insertK a t st.endpoints ++ rest = _
      rw [insertK_of_not_mem ha, List.append_assoc, List.singleton_append]

theorem resetFn_endpoints (f : Nat → Nat → Svc) (st : PoolState) (L : List (Nat × Nat))
    (hL : (keysL L).Nodup) : (resetFn f st L).1.endpoints = L := by
  rw [resetFn_eq, evictAll_endpoints]
  rw [resetLoop_endpoints_append f L { st with endpoints := [] } st.endpoints false [] hL
    (fun x _ hmem => absurd hmem (List.not_mem_nil x))]
  rfl

theorem resetLoop_noop (f : Nat → Nat → Svc) :
    ∀ (L : List (Nat × Nat)) (st : PoolState) (rem : List (Nat × Nat)) (ch : Bool)
      (evs : List Event),
      (keysL L).Nodup → (keysL rem).Nodup →
      (∀ x, x ∈ keysL L → x ∉ keysL st.endpoints) →
      (∀ p : Nat × Nat, p ∈ L ↔ p ∈ rem) →
      resetLoop f L st rem ch evs = ({ st with endpoints := st.endpoints ++ L }, [], ch, evs) := by
  intro L
  induction L with
  | nil =>
    intro st rem ch evs _ _ _ hmem
    have hrem : rem = [] := by
      cases rem with
      | nil => rfl
      | cons q qs => exact absurd ((hmem q).2 (List.mem_cons_self q qs)) (List.not_mem_nil q)
    subst hrem
    simp only [resetLoop, List.append_nil]
  | cons p rest ih =>
    intro st rem ch evs hL hR hD hmem
    obtain ⟨a, t⟩ := p
    simp only [keysL_cons, List.nodup_cons] at hL
    have haT : (a, t) ∈ rem := (hmem (a, t)).1 (List.mem_cons_self _ _)
    have hlk : lookupK a rem = some t := lookupK_of_mem_nodup hR haT
    have ha : a ∉ keysL st.endpoints := hD a (List.mem_cons_self a _)
    have hD' : ∀ x, x ∈ keysL rest → x ∉ keysL (insertK a t st.endpoints) := by
      intro x hx hmem2
      rcases mem_keysL_insertK.1 hmem2 with rfl | hmem3
      · exact hL.1 hx
      · exact hD x (List.mem_cons_of_mem _ hx) hmem3
    have hmem' : ∀ p : Nat × Nat, p ∈ rest ↔ p ∈ eraseK a rem := by
      intro q
      obtain ⟨x, y⟩ := q
      constructor
      · intro hq
        have hxa : x ≠ a := by
          rintro rfl
          exact hL.1 (mem_keysL.2 ⟨y, hq⟩)
        exact (mem_eraseK_of_ne hxa).2 ((hmem (x, y)).1 (List.mem_cons_of_mem _ hq))
      · intro hq
        have hq2 : (x, y) ∈ rem := mem_of_mem_eraseK hq
        rcases List.mem_cons.1 ((hmem (x, y)).2 hq2) with he | hq3
        · rw [Prod.mk.injEq] at he
          exfalso
          have hx : x ∈ keysL (eraseK a rem) := mem_keysL.2 ⟨y, hq⟩
          rw [he.1] at hx
          exact not_mem_keysL_eraseK (m := rem) hR hx
        · exact hq3
    simp only [resetLoop, if_pos hlk]
    rw [ih _ _ _ _ hL.2 (nodup_keysL_eraseK hR) hD' hmem']
    simp only [insertK_of_not_mem ha, List.append_assoc, List.singleton_append]

theorem resetFn_noop (f : Nat → Nat → Svc) (st : PoolState) (L : List (Nat × Nat))
    (hL : (keysL L).Nodup) (hR : (keysL st.endpoints).Nodup)
    (hmem : ∀ p : Nat × Nat, p ∈ L ↔ p ∈ st.endpoints) :
    resetFn f st L = ({ st with endpoints := L }, false, []) := by
  rw [resetFn_eq, resetLoop_noop f L { st with endpoints := [] } st.endpoints false [] hL hR
    (fun x _ hmem2 => absurd hmem2 (List.not_mem_nil x)) hmem]
  rfl

theorem addLoop_noop (f : Nat → Nat → Svc) :
    ∀ (L : List (Nat × Nat)) (st : PoolState) (ch : Bool) (evs : List Event),
      (∀ p : Nat × Nat, p ∈ L → lookupK p.1 st.endpoints = some p.2) →
      addLoop f L st ch evs = (st, ch, evs) := by
  intro L
  induction L with
  | nil => intro st ch evs _; rfl
  | cons p rest ih =>
    intro st ch evs h
    obtain ⟨a, t⟩ := p
    have hl : lookupK a st.endpoints = some t := h (a, t) (List.mem_cons_self _ _)
    simp only [addLoop, hl]
    rw [if_pos trivial]
    exact ih _ _ _ (fun q hq => h q (List.mem_cons_of_mem _ hq))

theorem removeLoop_noop :
    ∀ (addrs : List Nat) (st : PoolState) (ch : Bool) (evs : List Event),
      (∀ a ∈ addrs, lookupK a st.endpoints = none) →
      removeLoop addrs st ch evs = (st, ch, evs) := by
  intro addrs
  induction addrs with
  | nil => intro st ch evs _; rfl
  | cons a rest ih =>
    intro st ch evs h
    have hl : lookupK a st.endpoints = none := h a (List.mem_cons_self _ _)
    simp only [removeLoop, hl]
    exact ih _ _ _ (fun x hx => h x (List.mem_cons_of_mem _ hx))

theorem clearFn_noop (st : PoolState) (h : st.endpoints = []) :
    clearFn st = (st, false, []) := by
  have h2 : ({ st with endpoints := ([] : List (Nat × Nat)) } : PoolState) = st := by
    rw [← h]
  rw [clearFn_eq, h, h2]
  rfl

theorem updatePool_state_eq (f : Nat → Nat → Svc) (st : PoolState) (u : Update) :
    updatePool f st u = (if (applyUpdate f (incCounter st u) u).2.1
      then { (applyUpdate f (incCounter st u) u).1 with next_idx := none }
      else (applyUpdate f (incCounter st u) u).1) := rfl

theorem updatePool_endpoints_proj (f : Nat → Nat → Svc) (st : PoolState) (u : Update) :
    (updatePool f st u).endpoints = (applyUpdate f (incCounter st u) u).1.endpoints := by
  rw [updatePool_state_eq]
  split
  · rfl
  · rfl

/-- C6: the claim as stated — `Reset` idempotence for every list `L` —
fails when `L` repeats an address: the second application of
`Reset [(0,0),(0,0)]` still invokes the factory and reports a change. -/
theorem c6_counterexample :
    (updatePoolE f0 (updatePool f0 (initPool []) (Update.reset [(0, 0), (0, 0)]))
      (Update.reset [(0, 0), (0, 0)])).2.1 = true ∧
    Event.factory 0 0 ∈ (updatePoolE f0 (updatePool f0 (initPool [])
      (Update.reset [(0, 0), (0, 0)])) (Update.reset [(0, 0), (0, 0)])).2.2 := by
  refine ⟨by decide, by decide⟩

/-- C6 (amended): for every `Reset` list `L` with pairwise-distinct
addresses, applying `Reset L` twice in a row reports no change on the second
application, records no event at all (in particular zero factory
invocations), and leaves the membership, the gauge and the stored selection
exactly as after the first application. -/
theorem c6_reset_idempotent (f : Nat → Nat → Svc) (st : PoolState) (L : List (Nat × Nat))
    (hL : (keysL L).Nodup) :
    (updatePoolE f (updatePool f st (Update.reset L)) (Update.reset L)).2.1 = false ∧
    (updatePoolE f (updatePool f st (Update.reset L)) (Update.reset L)).2.2 = [] ∧
    (∀ a t, Event.factory a t ∉
      (updatePoolE f (updatePool f st (Update.reset L)) (Update.reset L)).2.2) ∧
    (updatePoolE f (updatePool f st (Update.reset L)) (Update.reset L)).1.endpoints =
      (updatePool f st (Update.reset L)).endpoints ∧
    (updatePoolE f (updatePool f st (Update.reset L)) (Update.reset L)).1.gauge =
      (updatePool f st (Update.reset L)).gauge ∧
    (updatePoolE f (updatePool f st (Update.reset L)) (Update.reset L)).1.next_idx =
      (updatePool f st (Update.reset L)).next_idx := by
  have h1 : (updatePool f st (Update.reset L)).endpoints = L := by
    rw [updatePool_endpoints_proj]
    exact resetFn_endpoints f _ L hL
  have h2 : applyUpdate f (incCounter (updatePool f st (Update.reset L)) (Update.reset L))
      (Update.reset L) =
      ({ incCounter (updatePool f st (Update.reset L)) (Update.reset L)
          with endpoints := L }, false, []) := by
    show resetFn f _ L = _
    apply resetFn_noop f _ L hL
    · show (keysL (updatePool f st (Update.reset L)).endpoints).Nodup
      rw [h1]
      exact hL
    · intro p
      show p ∈ L ↔ p ∈ (updatePool f st (Update.reset L)).endpoints
      rw [h1]
  have h3 := updatePoolE_of_unchanged f (updatePool f st (Update.reset L))
    (Update.reset L) _ h2
  rw [h3]
  refine ⟨rfl, rfl, by simp, ?_, ?_, ?_⟩
  · show L = _
    rw [h1]
  · show (incCounter (updatePool f st (Update.reset L)) (Update.reset L)).gauge = _
    exact (incCounter_frame _ _).2.2.2.2
  · show (incCounter (updatePool f st (Update.reset L)) (Update.reset L)).next_idx = _
    exact (incCounter_frame _ _).1

/-- Witness for the amended C6 on a concrete duplicate-free list. -/
theorem c6_reset_idempotent_witness :
    (keysL [(0, 0), (1, 1)]).Nodup ∧
    ((updatePoolE f0 (updatePool f0 (initPool []) (Update.reset [(0, 0), (1, 1)]))
      (Update.reset [(0, 0), (1, 1)])).2.1 = false ∧
    (updatePoolE f0 (updatePool f0 (initPool []) (Update.reset [(0, 0), (1, 1)]))
      (Update.reset [(0, 0), (1, 1)])).2.2 = [] ∧
    (∀ a t, Event.factory a t ∉
      (updatePoolE f0 (updatePool f0 (initPool []) (Update.reset [(0, 0), (1, 1)]))
        (Update.reset [(0, 0), (1, 1)])).2.2) ∧
    (updatePoolE f0 (updatePool f0 (initPool []) (Update.reset [(0, 0), (1, 1)]))
      (Update.reset [(0, 0), (1, 1)])).1.endpoints =
      (updatePool f0 (initPool []) (Update.reset [(0, 0), (1, 1)])).endpoints ∧
    (updatePoolE f0 (updatePool f0 (initPool []) (Update.reset [(0, 0), (1, 1)]))
      (Update.reset [(0, 0), (1, 1)])).1.gauge =
      (updatePool f0 (initPool []) (Update.reset [(0, 0), (1, 1)])).gauge ∧
    (updatePoolE f0 (updatePool f0 (initPool []) (Update.reset [(0, 0), (1, 1)]))
      (Update.reset [(0, 0), (1, 1)])).1.next_idx =
      (updatePool f0 (initPool []) (Update.reset [(0, 0), (1, 1)])).next_idx) :=
  ⟨by decide, c6_reset_idempotent f0 (initPool []) [(0, 0), (1, 1)] (by decide)⟩

/-- C10: an update whose application mutates neither the registry nor the
cache — a `Remove` of absent addresses, an `Add` whose pairs all equal their
current registry entries, a `Reset` whose pairs are exactly the current
registry entries, or a `DoesNotExist` on an empty pool — leaves the stored
selection and both cache partitions (hence every endpoint service)
unchanged. -/
theorem c10_noop_frame (f : Nat → Nat → Svc) (st : PoolState) :
    (∀ addrs : List Nat, (∀ a ∈ addrs, lookupK a st.endpoints = none) →
      (updatePool f st (Update.remove addrs)).next_idx = st.next_idx ∧
      (updatePool f st (Update.remove addrs)).pendingQ = st.pendingQ ∧
      (updatePool f st (Update.remove addrs)).readyQ = st.readyQ) ∧
    (∀ L : List (Nat × Nat), (∀ p ∈ L, lookupK p.1 st.endpoints = some p.2) →
      (updatePool f st (Update.add L)).next_idx = st.next_idx ∧
      (updatePool f st (Update.add L)).pendingQ = st.pendingQ ∧
      (updatePool f st (Update.add L)).readyQ = st.readyQ) ∧
    (∀ L : List (Nat × Nat), (keysL L).Nodup → (keysL st.endpoints).Nodup →
      (∀ p : Nat × Nat, p ∈ L ↔ p ∈ st.endpoints) →
      (updatePool f st (Update.reset L)).next_idx = st.next_idx ∧
      (updatePool f st (Update.reset L)).pendingQ = st.pendingQ ∧
      (updatePool f st (Update.reset L)).readyQ = st.readyQ) ∧
    (st.endpoints = [] →
      (updatePool f st Update.doesNotExist).next_idx = st.next_idx ∧
      (updatePool f st Update.doesNotExist).pendingQ = st.pendingQ ∧
      (updatePool f st Update.doesNotExist).readyQ = st.readyQ) := by
  refine ⟨?_, ?_, ?_, ?_⟩
  · intro addrs h
    have h2 : applyUpdate f (incCounter st (Update.remove addrs)) (Update.remove addrs) =
        (incCounter st (Update.remove addrs), false, []) := by
      show removeLoop addrs (incCounter st (Update.remove addrs)) false [] = _
      exact removeLoop_noop addrs _ false [] (fun a ha => h a ha)
    have h3 := updatePoolE_of_unchanged f st (Update.remove addrs) _ h2
    have h4 : updatePool f st (Update.remove addrs) =
        incCounter st (Update.remove addrs) := by
      show (updatePoolE f st (Update.remove addrs)).1 = _
      rw [h3]
    rw [h4]
    exact ⟨(incCounter_frame st _).1, (incCounter_frame st _).2.1,
      (incCounter_frame st _).2.2.1⟩
  · intro L h
    have h2 : applyUpdate f (incCounter st (Update.add L)) (Update.add L) =
        (incCounter st (Update.add L), false, []) := by
      show addLoop f L (incCounter st (Update.add L)) false [] = _
      exact addLoop_noop f L _ false [] (fun p hp => h p hp)
    have h3 := updatePoolE_of_unchanged f st (Update.add L) _ h2
    have h4 : updatePool f st (Update.add L) = incCounter st (Update.add L) := by
      show (updatePoolE f st (Update.add L)).1 = _
      rw [h3]
    rw [h4]
    exact ⟨(incCounter_frame st _).1, (incCounter_frame st _).2.1,
      (incCounter_frame st _).2.2.1⟩
  · intro L hLn hEn hmem
    have h2 : applyUpdate f (incCounter st (Update.reset L)) (Update.reset L) =
        ({ incCounter st (Update.reset L) with endpoints := L }, false, []) := by
      show resetFn f _ L = _
      apply resetFn_noop f _ L hLn
      · show (keysL st.endpoints).Nodup
        exact hEn
      · intro p
        show p ∈ L ↔ p ∈ st.endpoints
        exact hmem p
    have h3 := updatePoolE_of_unchanged f st (Update.reset L) _ h2
    have h4 : updatePool f st (Update.reset L) =
        { incCounter st (Update.reset L) with endpoints := L } := by
      show (updatePoolE f st (Update.reset L)).1 = _
      rw [h3]
    rw [h4]
    exact ⟨(incCounter_frame st _).1, (incCounter_frame st _).2.1,
      (incCounter_frame st _).2.2.1⟩
  · intro h
    have h2 : applyUpdate f (incCounter st Update.doesNotExist) Update.doesNotExist =
        (incCounter st Update.doesNotExist, false, []) := by
      show clearFn (incCounter st Update.doesNotExist) = _
      exact clearFn_noop _ (by show st.endpoints = []; exact h)
    have h3 := updatePoolE_of_unchanged f st Update.doesNotExist _ h2
    have h4 : updatePool f st Update.doesNotExist = incCounter st Update.doesNotExist := by
      show (updatePoolE f st Update.doesNotExist).1 = _
      rw [h3]
    rw [h4]
    exact ⟨(incCounter_frame st _).1, (incCounter_frame st _).2.1,
      (incCounter_frame st _).2.2.1⟩

/-- Witness for C10: at a concrete state with a reserved selection, a
`Remove` of an absent address and a `Reset` equal to the registry leave the
selection and both cache partitions untouched. -/
theorem c10_noop_frame_witness :
    ((∀ a ∈ [7], lookupK a stC.endpoints = none) ∧
      (updatePool f0 stC (Update.remove [7])).next_idx = stC.next_idx ∧
      (updatePool f0 stC (Update.remove [7])).pendingQ = stC.pendingQ ∧
      (updatePool f0 stC (Update.remove [7])).readyQ = stC.readyQ) ∧
    ((updatePool f0 stC (Update.reset [(3, 4)])).next_idx = stC.next_idx ∧
      (updatePool f0 stC (Update.reset [(3, 4)])).pendingQ = stC.pendingQ ∧
      (updatePool f0 stC (Update.reset [(3, 4)])).readyQ = stC.readyQ) :=
  ⟨⟨by decide, (c10_noop_frame f0 stC).1 [7] (by decide)⟩,
    (c10_noop_frame f0 stC).2.2.1 [(3, 4)] (by decide) (by decide) (fun p => Iff.rfl)⟩

end NoopUpdates

section MutationEvents

theorem resetLoop_changed (f : Nat → Nat → Svc) :
    ∀ (L : List (Nat × Nat)) (st : PoolState) (rem : List (Nat × Nat)) (ch : Bool)
      (evs : List Event), (resetLoop f L st rem ch evs).2.2.1 = false →
      (resetLoop f L st rem ch evs).2.2.2 = evs ∧ ch = false := by
  intro L
  induction L with
  | nil => intro st rem ch evs h; exact ⟨rfl, h⟩
  | cons p rest ih =>
    intro st rem ch evs h
    obtain ⟨a, t⟩ := p
    by_cases hlk : lookupK a rem = some t
    · simp only [resetLoop, if_pos hlk] at h ⊢
      exact ih _ _ _ _ h
    · simp only [resetLoop, if_neg hlk] at h
      exact absurd (ih _ _ _ _ h).2 (by simp)

theorem evictAll_changed :
    ∀ (rem : List (Nat × Nat)) (st : PoolState) (ch : Bool) (evs : List Event),
      (evictAll rem st ch evs).2.1 = false →
      (evictAll rem st ch evs).2.2 = evs ∧ ch = false ∧ rem = [] := by
  intro rem
  induction rem with
  | nil => intro st ch evs h; exact ⟨rfl, h, rfl⟩
  | cons p rest ih =>
    intro st ch evs h
    obtain ⟨a, t⟩ := p
    simp only [evictAll] at h
    exact absurd (ih _ _ _ h).2.1 (by simp)

theorem addLoop_changed (f : Nat → Nat → Svc) :
    ∀ (L : List (Nat × Nat)) (st : PoolState) (ch : Bool) (evs : List Event),
      (addLoop f L st ch evs).2.1 = false →
      (addLoop f L st ch evs).2.2 = evs ∧ ch = false := by
  intro L
  induction L with
  | nil => intro st ch evs h; exact ⟨rfl, h⟩
  | cons p rest ih =>
    intro st ch evs h
    obtain ⟨a, t⟩ := p
    cases hl : lookupK a st.endpoints with
    | some t' =>
      by_cases ht : t' = t
      · simp only [addLoop, hl, if_pos ht] at h ⊢
        exact ih _ _ _ h
      · simp only [addLoop, hl, if_neg ht] at h
        exact absurd (ih _ _ _ h).2 (by simp)
    | none =>
      simp only [addLoop, hl] at h
      exact absurd (ih _ _ _ h).2 (by simp)

theorem removeLoop_changed :
    ∀ (addrs : List Nat) (st : PoolState) (ch : Bool) (evs : List Event),
      (removeLoop addrs st ch evs).2.1 = false →
      (removeLoop addrs st ch evs).2.2 = evs ∧ ch = false := by
  intro addrs
  induction addrs with
  | nil => intro st ch evs h; exact ⟨rfl, h⟩
  | cons a rest ih =>
    intro st ch evs h
    cases hl : lookupK a st.endpoints with
    | some t' =>
      simp only [removeLoop, hl] at h
      exact absurd (ih _ _ _ h).2 (by simp)
    | none =>
      simp only [removeLoop, hl] at h ⊢
      exact ih _ _ _ h

theorem applyUpdate_changed (f : Nat → Nat → Svc) (st : PoolState) (u : Update) :
    (applyUpdate f st u).2.1 = false → (applyUpdate f st u).2.2 = [] := by
  cases u with
  | reset targets =>
    show (resetFn f st targets).2.1 = false → (resetFn f st targets).2.2 = []
    rw [resetFn_eq]
    intro h
    have he := evictAll_changed _ _ _ _ h
    have hr := resetLoop_changed f targets { st with endpoints := [] } st.endpoints
      false [] he.2.1
    rw [he.1, hr.1]
  | add targets =>
    intro h
    exact (addLoop_changed f targets st false [] h).1
  | remove addrs =>
    intro h
    exact (removeLoop_changed addrs st false [] h).1
  | doesNotExist =>
    show (clearFn st).2.1 = false → (clearFn st).2.2 = []
    rw [clearFn_eq]
    intro h
    have hempty : st.endpoints = [] := by
      cases hE : st.endpoints with
      | nil => rfl
      | cons q qs =>
        rw [hE] at h
        simp [List.isEmpty] at h
    rw [hempty]
    rfl

/-- C8: an update whose application mutated the readiness cache (its event
trace contains a push or an evict) leaves the pool with its stored selection
cleared, so the next `poll_ready` re-selects from scratch. -/
theorem c8_mutation_clears_selection (f : Nat → Nat → Svc) (st : PoolState) (u : Update)
    (h : ∃ e, e ∈ (updatePoolE f st u).2.2 ∧ cacheMutEv e = true) :
    (updatePoolE f st u).1.next_idx = none := by
  obtain ⟨e, he, _⟩ := h
  by_cases hch : (applyUpdate f (incCounter st u) u).2.1 = true
  · show (if (applyUpdate f (incCounter st u) u).2.1 = true
        then { (applyUpdate f (incCounter st u) u).1 with next_idx := none }
        else (applyUpdate f (incCounter st u) u).1).next_idx = none
    rw [if_pos hch]
  · have hch2 : (applyUpdate f (incCounter st u) u).2.1 = false := by
      revert hch
      cases (applyUpdate f (incCounter st u) u).2.1 <;> simp
    have h0 := applyUpdate_changed f (incCounter st u) u hch2
    have he2 : e ∈ (applyUpdate f (incCounter st u) u).2.2 := he
    rw [h0] at he2
    exact absurd he2 (List.not_mem_nil e)

/-- Witness for C8: adding a fresh endpoint pushes into the cache, and the
resulting pool has no stored selection. -/
theorem c8_mutation_clears_selection_witness :
    (∃ e, e ∈ (updatePoolE f0 stC (Update.add [(0, 1)])).2.2 ∧ cacheMutEv e = true) ∧
    (updatePoolE f0 stC (Update.add [(0, 1)])).1.next_idx = none :=
  ⟨⟨Event.push 0, by decide, by decide⟩,
    c8_mutation_clears_selection f0 stC (Update.add [(0, 1)])
      ⟨Event.push 0, by decide, by decide⟩⟩

end MutationEvents

section PollReady

theorem takeOrP2c_next_idx (st : PoolState) : (takeOrP2c st).2.next_idx = none := by
  cases h : st.next_idx with
  | some i => simp [takeOrP2c, h]
  | none =>
    simp only [takeOrP2c, h]
    unfold p2cReadyIndex
    split_ifs <;> simp [h]

theorem checkReadyIndex_of_get_none {st : PoolState} {i : Nat}
    (hg : st.readyQ.get? i = none) : checkReadyIndex st i = none := by
  unfold checkReadyIndex
  rw [hg]

theorem checkReadyIndex_unfold (st : PoolState) (i a : Nat) (s : Svc)
    (hg : st.readyQ.get? i = some (a, s)) :
    checkReadyIndex st i = (match s.probes with
      | [] =>
        some ({ st with
                  readyQ := st.readyQ.eraseIdx i
                  pendingQ := st.pendingQ ++ [(a, s)] }, CheckRes.ok false)
      | Probe.ready :: ps =>
        some ({ st with readyQ := st.readyQ.set i (a, { s with probes := ps }) },
          CheckRes.ok true)
      | Probe.pend :: ps =>
        some ({ st with
                  readyQ := st.readyQ.eraseIdx i
                  pendingQ := st.pendingQ ++ [(a, { s with probes := ps })] },
          CheckRes.ok false)
      | Probe.fail e :: _ =>
        some ({ st with readyQ := st.readyQ.eraseIdx i }, CheckRes.err a e)) := by
  unfold checkReadyIndex
  rw [hg]

theorem checkReadyIndex_next_idx {st st3 : PoolState} {i : Nat} {r : CheckRes}
    (h : checkReadyIndex st i = some (st3, r)) : st3.next_idx = st.next_idx := by
  cases hg : st.readyQ.get? i with
  | none => rw [checkReadyIndex_of_get_none hg] at h; cases h
  | some p =>
    obtain ⟨a, s⟩ := p
    rw [checkReadyIndex_unfold st i a s hg] at h
    cases hp : s.probes with
    | nil =>
      rw [hp] at h
      simp only [Option.some.injEq, Prod.mk.injEq] at h
      rw [← h.1]
    | cons pr ps =>
      cases pr with
      | ready =>
        rw [hp] at h
        simp only [Option.some.injEq, Prod.mk.injEq] at h
        rw [← h.1]
      | pend =>
        rw [hp] at h
        simp only [Option.some.injEq, Prod.mk.injEq] at h
        rw [← h.1]
      | fail e =>
        rw [hp] at h
        simp only [Option.some.injEq, Prod.mk.injEq] at h
        rw [← h.1]

theorem checkReadyIndex_true_get {st st3 : PoolState} {i : Nat}
    (h : checkReadyIndex st i = some (st3, CheckRes.ok true)) :
    ∃ a s, st3.readyQ.get? i = some (a, s) := by
  cases hg : st.readyQ.get? i with
  | none => rw [checkReadyIndex_of_get_none hg] at h; cases h
  | some p =>
    obtain ⟨a, s⟩ := p
    have hlt : i < st.readyQ.length := by
      by_contra hge
      have h0 := List.get?_eq_none.2 (Nat.le_of_not_lt hge)
      rw [h0] at hg
      cases hg
    rw [checkReadyIndex_unfold st i a s hg] at h
    cases hp : s.probes with
    | nil =>
      rw [hp] at h
      simp only [Option.some.injEq, Prod.mk.injEq] at h
      cases h.2
    | cons pr ps =>
      cases pr with
      | ready =>
        rw [hp] at h
        simp only [Option.some.injEq, Prod.mk.injEq] at h
        refine ⟨a, { s with probes := ps }, ?_⟩
        rw [← h.1]
        show (st.readyQ.set i (a, { s with probes := ps })).get? i = _
        rw [List.get?_eq_getElem?]
        exact List.getElem?_set_eq_of_lt _ hlt
      | pend =>
        rw [hp] at h
        simp only [Option.some.injEq, Prod.mk.injEq] at h
        cases h.2
      | fail e =>
        rw [hp] at h
        simp only [Option.some.injEq, Prod.mk.injEq] at h
        cases h.2

theorem pollReady_ok_valid :
    ∀ (fuel : Nat) (st st' : PoolState),
      pollReadyAux fuel st = some (PollOut.ok, st') →
      ∃ i a s, st'.next_idx = some i ∧ st'.readyQ.get? i = some (a, s) := by
  intro fuel
  induction fuel with
  | zero =>
    intro st st' h
    simp [pollReadyAux] at h
  | succ n ih =>
    intro st st' h
    simp only [pollReadyAux] at h
    cases hpp : (pollPending st).2 with
    | err a e =>
      rw [hpp] at h
      simp at h
    | ok =>
      rw [hpp] at h
      simp only [] at h
      cases hc : (takeOrP2c (pollPending st).1).1 with
      | none =>
        rw [hc] at h
        simp at h
      | some idx =>
        rw [hc] at h
        simp only [] at h
        cases hk : checkReadyIndex (takeOrP2c (pollPending st).1).2 idx with
        | none => rw [hk] at h; cases h
        | some pr2 =>
          obtain ⟨st3, res⟩ := pr2
          rw [hk] at h
          cases res with
          | ok b =>
            cases b with
            | true =>
              simp only [Option.some.injEq, Prod.mk.injEq] at h
              obtain ⟨a, s, hget⟩ := checkReadyIndex_true_get hk
              refine ⟨idx, a, s, ?_, ?_⟩
              · rw [← h.2]
              · rw [← h.2]
                exact hget
            | false => exact ih _ _ h
          | err a e =>
            simp at h
    | stillPending =>
      rw [hpp] at h
      simp only [] at h
      cases hc : (takeOrP2c (pollPending st).1).1 with
      | none =>
        rw [hc] at h
        simp at h
      | some idx =>
        rw [hc] at h
        simp only [] at h
        cases hk : checkReadyIndex (takeOrP2c (pollPending st).1).2 idx with
        | none => rw [hk] at h; cases h
        | some pr2 =>
          obtain ⟨st3, res⟩ := pr2
          rw [hk] at h
          cases res with
          | ok b =>
            cases b with
            | true =>
              simp only [Option.some.injEq, Prod.mk.injEq] at h
              obtain ⟨a, s, hget⟩ := checkReadyIndex_true_get hk
              refine ⟨idx, a, s, ?_, ?_⟩
              · rw [← h.2]
              · rw [← h.2]
                exact hget
            | false => exact ih _ _ h
          | err a e =>
            simp at h

/-- C2: one unfolding of the `poll_ready` loop. It calls `poll_pending` and
propagates an endpoint failure as a ready error; the candidate is the stored
selection when present (emptied by `take`) and otherwise comes from the P2C
selector; with no candidate the result is pending, even when the pending
partition is empty; otherwise the candidate is re-checked: on success it is
stored as the selection and the result is ready-ok, on a reversion to
pending the loop continues with no selection stored, and on failure the
error is returned. -/
theorem c2_poll_ready_loop (fuel : Nat) (st : PoolState) :
    (∀ st1 a e, pollPending st = (st1, PendRes.err a e) →
      pollReadyAux (fuel + 1) st = some (PollOut.err (PoolError.failed a e), st1)) ∧
    (∀ s : PoolState, ∀ i, s.next_idx = some i →
      takeOrP2c s = (some i, { s with next_idx := none })) ∧
    (∀ s : PoolState, s.next_idx = none → takeOrP2c s = p2cReadyIndex s) ∧
    (∀ st1 pres st2, pollPending st = (st1, pres) →
      (∀ a e, pres ≠ PendRes.err a e) → takeOrP2c st1 = (none, st2) →
      pollReadyAux (fuel + 1) st = some (PollOut.pending, st2)) ∧
    (∀ st1 pres i st2 st3, pollPending st = (st1, pres) →
      (∀ a e, pres ≠ PendRes.err a e) → takeOrP2c st1 = (some i, st2) →
      checkReadyIndex st2 i = some (st3, CheckRes.ok true) →
      pollReadyAux (fuel + 1) st = some (PollOut.ok, { st3 with next_idx := some i })) ∧
    (∀ st1 pres i st2 st3, pollPending st = (st1, pres) →
      (∀ a e, pres ≠ PendRes.err a e) → takeOrP2c st1 = (some i, st2) →
      checkReadyIndex st2 i = some (st3, CheckRes.ok false) →
      pollReadyAux (fuel + 1) st = pollReadyAux fuel st3 ∧ st3.next_idx = none) ∧
    (∀ st1 pres i st2 st3 a e, pollPending st = (st1, pres) →
      (∀ a' e', pres ≠ PendRes.err a' e') → takeOrP2c st1 = (some i, st2) →
      checkReadyIndex st2 i = some (st3, CheckRes.err a e) →
      pollReadyAux (fuel + 1) st = some (PollOut.err (PoolError.failed a e), st3)) := by
  refine ⟨?_, ?_, ?_, ?_, ?_, ?_, ?_⟩
  · intro st1 a e hpp
    simp only [pollReadyAux, hpp]
  · intro s i hsi
    simp [takeOrP2c, hsi]
  · intro s hs
    simp [takeOrP2c, hs]
  · intro st1 pres st2 hpp hne htk
    cases pres with
    | err a e => exact absurd rfl (hne a e)
    | ok =>
      simp only [pollReadyAux, hpp]
      rw [htk]
    | stillPending =>
      simp only [pollReadyAux, hpp]
      rw [htk]
  · intro st1 pres i st2 st3 hpp hne htk hck
    cases pres with
    | err a e => exact absurd rfl (hne a e)
    | ok =>
      simp only [pollReadyAux, hpp]
      rw [htk]
      simp only []
      rw [hck]
    | stillPending =>
      simp only [pollReadyAux, hpp]
      rw [htk]
      simp only []
      rw [hck]
  · intro st1 pres i st2 st3 hpp hne htk hck
    have h1 : st2.next_idx = none := by
      have h0 := takeOrP2c_next_idx st1
      rw [htk] at h0
      exact h0
    have h2 : st3.next_idx = none := by
      rw [checkReadyIndex_next_idx hck]
      exact h1
    refine ⟨?_, h2⟩
    cases pres with
    | err a e => exact absurd rfl (hne a e)
    | ok =>
      simp only [pollReadyAux, hpp]
      rw [htk]
      simp only []
      rw [hck]
    | stillPending =>
      simp only [pollReadyAux, hpp]
      rw [htk]
      simp only []
      rw [hck]
  · intro st1 pres i st2 st3 a e hpp hne htk hck
    cases pres with
    | err a' e' => exact absurd rfl (hne a' e')
    | ok =>
      simp only [pollReadyAux, hpp]
      rw [htk]
      simp only []
      rw [hck]
    | stillPending =>
      simp only [pollReadyAux, hpp]
      rw [htk]
      simp only []
      rw [hck]

/-- Witness for C2: a failing pending endpoint surfaces its error, and an
empty pool returns pending even though its pending partition is empty. -/
theorem c2_poll_ready_loop_witness :
    pollReadyAux 1 stF = some (PollOut.err (PoolError.failed 7 3), initPool []) ∧
    pollReadyAux 1 (initPool []) = some (PollOut.pending, initPool []) :=
  ⟨(c2_poll_ready_loop 0 stF).1 (initPool []) 7 3 (by decide),
   (c2_poll_ready_loop 0 (initPool [])).2.2.2.1 (initPool []) PendRes.ok (initPool [])
     (by decide) (fun a e h => PendRes.noConfusion h) (by decide)⟩

/-- C3: `call` takes the stored selection — with no stored selection the
call is a contract violation and fails (modelled as `none`) — empties it,
and dispatches the request through `call_ready_index` at exactly the
reserved index, widening the endpoint error into the pool error type; and
whenever `poll_ready` just returned ready-ok, the very next `call` routes to
the index it stored. -/
theorem c3_dispatch_selection :
    (∀ (st : PoolState) (req : Nat), st.next_idx = none → callP st req = none) ∧
    (∀ (st : PoolState) (req i a : Nat) (s : Svc), st.next_idx = some i →
      st.readyQ.get? i = some (a, s) →
      callP st req =
        some ({ addr := a, req := req, result := s.dispResult.mapError PoolError.dispatch },
          { st with
              next_idx := none
              readyQ := st.readyQ.eraseIdx i
              pendingQ := st.pendingQ ++ [(a, s)] })) ∧
    (∀ (fuel : Nat) (st st' : PoolState) (req : Nat),
      pollReadyAux (fuel + 1) st = some (PollOut.ok, st') →
      ∃ i a s, st'.next_idx = some i ∧ st'.readyQ.get? i = some (a, s) ∧
        callP st' req =
          some ({ addr := a, req := req, result := s.dispResult.mapError PoolError.dispatch },
            { st' with
                next_idx := none
                readyQ := st'.readyQ.eraseIdx i
                pendingQ := st'.pendingQ ++ [(a, s)] })) := by
  have hsome : ∀ (st : PoolState) (req i a : Nat) (s : Svc), st.next_idx = some i →
      st.readyQ.get? i = some (a, s) →
      callP st req =
        some ({ addr := a, req := req, result := s.dispResult.mapError PoolError.dispatch },
          { st with
              next_idx := none
              readyQ := st.readyQ.eraseIdx i
              pendingQ := st.pendingQ ++ [(a, s)] }) := by
    intro st req i a s hi hg
    unfold callP
    rw [hi]
    simp only []
    rw [hg]
  refine ⟨?_, hsome, ?_⟩
  · intro st req h
    unfold callP
    rw [h]
  · intro fuel st st' req h
    obtain ⟨i, a, s, hi, hg⟩ := pollReady_ok_valid (fuel + 1) st st' h
    exact ⟨i, a, s, hi, hg, hsome st' req i a s hi hg⟩

/-- Witness for C3: dispatch at a concrete reserved state routes to the
reserved ready endpoint, and dispatch without a selection fails. -/
theorem c3_dispatch_selection_witness :
    callP stC3 4 =
      some ({ addr := 5, req := 4,
              result := defaultSvc.dispResult.mapError PoolError.dispatch },
        { stC3 with
            next_idx := none
            readyQ := stC3.readyQ.eraseIdx 0
            pendingQ := stC3.pendingQ ++ [(5, defaultSvc)] }) ∧
    callP (initPool []) 4 = none :=
  ⟨c3_dispatch_selection.2.1 stC3 4 0 5 defaultSvc (by decide) (by decide),
   c3_dispatch_selection.1 (initPool []) 4 (by decide)⟩

end PollReady

end P2c
